import Mathlib

/-!
# Verification of the applouvor chord/lyric notation engine

Shallow embedding of the chord-notation core found in
`client/src/components/song-viewer.tsx`, `client/src/pages/songs.tsx` and
`client/src/pages/reset-password.tsx`.  JavaScript strings are modelled as
`List Char`; the JavaScript `%` operator (truncating remainder) is modelled
by `Int.tmod`.  Regular-expression tests are modelled by backtracking
matchers with existence semantics (a JS `RegExp.test` succeeds iff some way
of matching the whole pattern exists); greedy `match` extraction is
modelled by deterministic greedy scanners where the pattern's suffix is
entirely optional, so the JS engine never backtracks.
-/

namespace AppLouvor

/-- Pattern class `[A-G]`, the chord/note root letter. -/
def isRootLetter (c : Char) : Bool := 'A' ≤ c && c ≤ 'G'

/-- JavaScript whitespace class `\s` (also the character set removed by
`String.prototype.trim`). -/
def JS_WS : List Char :=
  [' ', '\t', '\n', '\x0b', '\x0c', '\r', '\u00A0', '\u1680',
   '\u2000', '\u2001', '\u2002', '\u2003', '\u2004', '\u2005',
   '\u2006', '\u2007', '\u2008', '\u2009', '\u200A',
   '\u2028', '\u2029', '\u202F', '\u205F', '\u3000', '\uFEFF']

def isJsWs (c : Char) : Bool := JS_WS.contains c

/-- `token.trim()`. -/
def trimL (cs : List Char) : List Char :=
  ((cs.dropWhile isJsWs).reverse.dropWhile isJsWs).reverse

/-- `NOTE_MAP` constant (identical in all three source files). -/
def NOTE_MAP : List (List Char × Nat) :=
  [("C".toList, 0), ("C#".toList, 1), ("Db".toList, 1), ("D".toList, 2),
   ("D#".toList, 3), ("Eb".toList, 3), ("E".toList, 4), ("F".toList, 5),
   ("F#".toList, 6), ("Gb".toList, 6), ("G".toList, 7), ("G#".toList, 8),
   ("Ab".toList, 8), ("A".toList, 9), ("A#".toList, 10), ("Bb".toList, 10),
   ("B".toList, 11)]

/-- Association-list lookup, mirroring a JS object property access that
yields `undefined` (`none`) on a missing key. -/
def mapLookup (m : List (List Char × Nat)) (k : List Char) : Option Nat :=
  match m with
  | [] => none
  | (k', v) :: rest => if k = k' then some v else mapLookup rest k

/-- `NOTE_NAMES_SHARP` constant. -/
def NOTE_NAMES_SHARP : List (List Char) :=
  [("C".toList), ("C#".toList), ("D".toList), ("D#".toList), ("E".toList),
   ("F".toList), ("F#".toList), ("G".toList), ("G#".toList), ("A".toList),
   ("A#".toList), ("B".toList)]

/-- `NOTE_NAMES_FLAT` constant. -/
def NOTE_NAMES_FLAT : List (List Char) :=
  [("C".toList), ("Db".toList), ("D".toList), ("Eb".toList), ("E".toList),
   ("F".toList), ("Gb".toList), ("G".toList), ("Ab".toList), ("A".toList),
   ("Bb".toList), ("B".toList)]

/-- `NOTE_MAP[root + modifier] ?? NOTE_MAP[root] ?? 0`. -/
def noteValueOf (root : Char) (modifier : List Char) : Nat :=
  (((mapLookup NOTE_MAP (root :: modifier)).or
    (mapLookup NOTE_MAP [root])).getD 0)

/-- Regex `^([A-G])([#b]?)$` used by `transposeNote`: returns the captured
root and modifier when the whole string matches. -/
def noteRegexMatch (note : List Char) : Option (Char × List Char) :=
  match note with
  | [r] => if isRootLetter r then some (r, []) else none
  | [r, c] =>
      if isRootLetter r && (c = '#' || c = 'b') then some (r, [c]) else none
  | _ => none

/-- `noteNames[newValue]` (the index is always `< 12`; out-of-range access
would be JS `undefined`, modelled by the `[]` default, which never fires). -/
def noteNameAt (useFlats : Bool) (idx : Nat) : List Char :=
  (if useFlats then NOTE_NAMES_FLAT else NOTE_NAMES_SHARP).getD idx []

/-- `transposeNote` (identical in all three source files):
`((noteValue + semitones) % 12 + 12) % 12` rendered through the selected
name table. -/
def transposeNote (note : List Char) (semitones : Int) (useFlats : Bool) :
    List Char :=
  match noteRegexMatch note with
  | none => note
  | some (root, modifier) =>
      let noteValue : Int := noteValueOf root modifier
      let newValue := (((noteValue + semitones).tmod 12) + 12).tmod 12
      noteNameAt useFlats newValue.toNat

/-- Regex `^([A-G])([#b]?)(.*)$` used by `transposeChord`: `[#b]?` is
greedy and `(.*)$` always succeeds, so the match is deterministic. -/
def chordRegexMatch (chord : List Char) :
    Option (Char × List Char × List Char) :=
  match chord with
  | [] => none
  | r :: rest =>
      if isRootLetter r then
        match rest with
        | c :: rest2 =>
            if c = '#' || c = 'b' then some (r, [c], rest2)
            else some (r, [], rest)
        | [] => some (r, [], [])
      else none

/-- `chord.indexOf("/")` followed by the two `substring` calls: splits at
the first slash when one is present. -/
def splitFirstSlash : List Char → Option (List Char × List Char)
  | [] => none
  | c :: cs =>
      if c = '/' then some ([], cs)
      else (splitFirstSlash cs).map (fun p => (c :: p.1, p.2))

theorem splitFirstSlash_main_length {cs main bass : List Char}
    (h : splitFirstSlash cs = some (main, bass)) :
    main.length < cs.length := by
  induction cs generalizing main bass with
  | nil => simp [splitFirstSlash] at h
  | cons c cs ih =>
    simp only [splitFirstSlash] at h
    split at h
    · obtain ⟨rfl, rfl⟩ : ([] : List Char) = main ∧ cs = bass := by
        simpa using h
      simp
    · cases hs : splitFirstSlash cs with
      | none => rw [hs] at h; simp at h
      | some p =>
        obtain ⟨m', b'⟩ := p
        rw [hs] at h
        simp only [Option.map_some'] at h
        obtain ⟨rfl, rfl⟩ : c :: m' = main ∧ b' = bass := by simpa using h
        have := ih hs
        simp only [List.length_cons]
        omega

/-- `transposeChord` from `song-viewer.tsx` (lines 72–92); the copy in
`reset-password.tsx` is textually identical, see `transposeChordRP`. -/
def transposeChord (chord : List Char) (semitones : Int) (useFlats : Bool) :
    List Char :=
  match h : splitFirstSlash chord with
  | some (mainPart, bassPart) =>
      transposeChord mainPart semitones useFlats ++
        '/' :: transposeNote bassPart semitones useFlats
  | none =>
      match chordRegexMatch chord with
      | none => chord
      | some (root, modifier, suffix) =>
          let noteValue : Int := noteValueOf root modifier
          let normalizedSemitones := ((semitones.tmod 12) + 12).tmod 12
          let newValue :=
            (((noteValue + normalizedSemitones).tmod 12) + 12).tmod 12
          noteNameAt useFlats newValue.toNat ++ suffix
termination_by chord.length
decreasing_by exact splitFirstSlash_main_length h

/-- `transposeChordForSave` from `songs.tsx` (lines 75–95): identical to
`transposeChord` except that the raw `semitones` value is used without the
`normalizedSemitones` step. -/
def transposeChordForSave (chord : List Char) (semitones : Int)
    (useFlats : Bool) : List Char :=
  match h : splitFirstSlash chord with
  | some (mainPart, bassPart) =>
      transposeChordForSave mainPart semitones useFlats ++
        '/' :: transposeNote bassPart semitones useFlats
  | none =>
      match chordRegexMatch chord with
      | none => chord
      | some (root, modifier, suffix) =>
          let noteValue : Int := noteValueOf root modifier
          let newValue := (((noteValue + semitones).tmod 12) + 12).tmod 12
          noteNameAt useFlats newValue.toNat ++ suffix
termination_by chord.length
decreasing_by exact splitFirstSlash_main_length h

/-- `transposeChord` from `reset-password.tsx` (lines 216–236), textually
identical to the `song-viewer.tsx` copy (its `useFlats = false` default is
irrelevant here since every argument is passed explicitly). -/
def transposeChordRP (chord : List Char) (semitones : Int)
    (useFlats : Bool) : List Char :=
  match h : splitFirstSlash chord with
  | some (mainPart, bassPart) =>
      transposeChordRP mainPart semitones useFlats ++
        '/' :: transposeNote bassPart semitones useFlats
  | none =>
      match chordRegexMatch chord with
      | none => chord
      | some (root, modifier, suffix) =>
          let noteValue : Int := noteValueOf root modifier
          let normalizedSemitones := ((semitones.tmod 12) + 12).tmod 12
          let newValue :=
            (((noteValue + normalizedSemitones).tmod 12) + 12).tmod 12
          noteNameAt useFlats newValue.toNat ++ suffix
termination_by chord.length
decreasing_by exact splitFirstSlash_main_length h

/-! ## Arithmetic facts about the JS `%` (truncating remainder) -/

theorem tmod_emod_cases (a : Int) :
    a.tmod 12 = a % 12 ∨ a.tmod 12 = a % 12 - 12 := by
  rcases a with n | n
  · left
    exact Int.tmod_eq_emod (Int.natCast_nonneg n) (by omega)
  · have h2 : (Int.negSucc n).tmod 12 = -(((n + 1) % 12 : Nat) : Int) := rfl
    rw [h2, Int.negSucc_eq]
    omega

theorem tmod_plus12_tmod (a : Int) :
    ((a.tmod 12) + 12).tmod 12 = a % 12 := by
  have h := tmod_emod_cases a
  have hr1 : 0 ≤ a % 12 := Int.emod_nonneg a (by omega)
  have hr2 : a % 12 < 12 := Int.emod_lt_of_pos a (by omega)
  have hnn : 0 ≤ a.tmod 12 + 12 := by omega
  rw [Int.tmod_eq_emod hnn (by omega)]
  omega

theorem double_norm_eq (v s : Int) :
    (((v + (((s.tmod 12) + 12).tmod 12)).tmod 12) + 12).tmod 12 =
      ((v + s).tmod 12 + 12).tmod 12 := by
  rw [tmod_plus12_tmod, tmod_plus12_tmod, tmod_plus12_tmod]
  omega

/-! ## One-step unfolding lemmas for the three transposition copies -/

theorem transposeChord_eq_none {chord : List Char}
    (h : splitFirstSlash chord = none) (s : Int) (f : Bool) :
    transposeChord chord s f =
      match chordRegexMatch chord with
      | none => chord
      | some (root, modifier, suffix) =>
          noteNameAt f
            (((((noteValueOf root modifier : Int) +
              (((s.tmod 12) + 12).tmod 12)).tmod 12) + 12).tmod 12).toNat ++
            suffix := by
  rw [transposeChord]
  split
  · rename_i mp bp heq
    rw [h] at heq
    simp at heq
  · rfl

theorem transposeChord_eq_some {chord main bass : List Char}
    (h : splitFirstSlash chord = some (main, bass)) (s : Int) (f : Bool) :
    transposeChord chord s f =
      transposeChord main s f ++ '/' :: transposeNote bass s f := by
  rw [transposeChord]
  split
  · rename_i mp bp heq
    rw [h] at heq
    obtain ⟨rfl, rfl⟩ : mp = main ∧ bp = bass := by
      constructor <;> · injection heq with heq'; injection heq' <;> simp_all
    rfl
  · rename_i heq
    rw [h] at heq
    simp at heq

theorem transposeChordForSave_eq_none {chord : List Char}
    (h : splitFirstSlash chord = none) (s : Int) (f : Bool) :
    transposeChordForSave chord s f =
      match chordRegexMatch chord with
      | none => chord
      | some (root, modifier, suffix) =>
          noteNameAt f
            ((((noteValueOf root modifier : Int) + s).tmod 12 + 12).tmod
              12).toNat ++ suffix := by
  rw [transposeChordForSave]
  split
  · rename_i mp bp heq
    rw [h] at heq
    simp at heq
  · rfl

theorem transposeChordForSave_eq_some {chord main bass : List Char}
    (h : splitFirstSlash chord = some (main, bass)) (s : Int) (f : Bool) :
    transposeChordForSave chord s f =
      transposeChordForSave main s f ++ '/' :: transposeNote bass s f := by
  rw [transposeChordForSave]
  split
  · rename_i mp bp heq
    rw [h] at heq
    obtain ⟨rfl, rfl⟩ : mp = main ∧ bp = bass := by
      constructor <;> · injection heq with heq'; injection heq' <;> simp_all
    rfl
  · rename_i heq
    rw [h] at heq
    simp at heq

theorem transposeChordRP_eq_none {chord : List Char}
    (h : splitFirstSlash chord = none) (s : Int) (f : Bool) :
    transposeChordRP chord s f =
      match chordRegexMatch chord with
      | none => chord
      | some (root, modifier, suffix) =>
          noteNameAt f
            (((((noteValueOf root modifier : Int) +
              (((s.tmod 12) + 12).tmod 12)).tmod 12) + 12).tmod 12).toNat ++
            suffix := by
  rw [transposeChordRP]
  split
  · rename_i mp bp heq
    rw [h] at heq
    simp at heq
  · rfl

theorem transposeChordRP_eq_some {chord main bass : List Char}
    (h : splitFirstSlash chord = some (main, bass)) (s : Int) (f : Bool) :
    transposeChordRP chord s f =
      transposeChordRP main s f ++ '/' :: transposeNote bass s f := by
  rw [transposeChordRP]
  split
  · rename_i mp bp heq
    rw [h] at heq
    obtain ⟨rfl, rfl⟩ : mp = main ∧ bp = bass := by
      constructor <;> · injection heq with heq'; injection heq' <;> simp_all
    rfl
  · rename_i heq
    rw [h] at heq
    simp at heq

/-- The three transposition copies agree everywhere; the only textual
difference (`transposeChordForSave` skips the `normalizedSemitones` step)
is erased by `double_norm_eq`. -/
theorem transpose_copies_agree (chord : List Char) (s : Int) (f : Bool) :
    transposeChordForSave chord s f = transposeChord chord s f ∧
    transposeChordRP chord s f = transposeChord chord s f := by
  cases h : splitFirstSlash chord with
  | none =>
    rw [transposeChord_eq_none h, transposeChordForSave_eq_none h,
      transposeChordRP_eq_none h]
    cases chordRegexMatch chord with
    | none => exact ⟨rfl, rfl⟩
    | some t =>
      obtain ⟨r, m, suf⟩ := t
      refine ⟨?_, rfl⟩
      dsimp only
      rw [double_norm_eq]
  | some p =>
    obtain ⟨m, b⟩ := p
    have hlt := splitFirstSlash_main_length h
    have ih := transpose_copies_agree m s f
    rw [transposeChord_eq_some h, transposeChordForSave_eq_some h,
      transposeChordRP_eq_some h, ih.1, ih.2]
    exact ⟨rfl, rfl⟩
termination_by chord.length
decreasing_by exact hlt

/-! ## The chord-token grammar
`/^[A-G][#b]?(?:m|M|maj|min|dim|aug|sus|add|7M|7m|7|9|11|13|6|5|4|2|\+|\-|°|ø|º|\([0-9#b+\-\/]+\))*(?:\/[A-G][#b]?)?$/`
modelled as a backtracking matcher with existence semantics: `test`
succeeds iff some decomposition of the string by the pattern exists. -/

/-- The literal alternatives of the suffix alternation, in source order
(the parenthesised-group alternative is handled by `parenAltRest`). -/
def SUFFIX_LITERALS : List (List Char) :=
  [("m".toList), ("M".toList), ("maj".toList), ("min".toList),
   ("dim".toList), ("aug".toList), ("sus".toList), ("add".toList),
   ("7M".toList), ("7m".toList), ("7".toList), ("9".toList),
   ("11".toList), ("13".toList), ("6".toList), ("5".toList),
   ("4".toList), ("2".toList), ("+".toList), ("-".toList),
   ("°".toList), ("ø".toList), ("º".toList)]

/-- Character class `[0-9#b+\-\/]` of the parenthesised alteration group. -/
def isParenChar (c : Char) : Bool :=
  ('0' ≤ c && c ≤ '9') || c = '#' || c = 'b' || c = '+' || c = '-' || c = '/'

/-- `pat` is a prefix of `cs` (JS `String.prototype.startsWith`). -/
def isPrefixL : List Char → List Char → Bool
  | [], _ => true
  | _ :: _, [] => false
  | a :: as, b :: bs => a = b && isPrefixL as bs

/-- Remainder after the alternative `\([0-9#b+\-\/]+\)` at the head of
`cs`.  The content class excludes `)`, so the greedy `+` is
deterministic. -/
def parenAltRest (cs : List Char) : Option (List Char) :=
  match cs with
  | c :: rest =>
      if c = '(' then
        if (rest.takeWhile isParenChar).length > 0 then
          match rest.dropWhile isParenChar with
          | ')' :: after => some after
          | _ => none
        else none
      else none
  | [] => none

/-- All remainders reachable by consuming one suffix alternative at the
head of `cs`. -/
def suffixAltRests (cs : List Char) : List (List Char) :=
  (SUFFIX_LITERALS.filterMap fun alt =>
    if isPrefixL alt cs then some (cs.drop alt.length) else none) ++
  (match parenAltRest cs with | some r => [r] | none => [])

/-- `(?:\/[A-G][#b]?)?$`: the string is empty, or is exactly a slash bass. -/
def matchBassEnd (cs : List Char) : Bool :=
  match cs with
  | [] => true
  | c :: rest =>
      c = '/' &&
        (match rest with
         | [r] => isRootLetter r
         | [r, c2] => isRootLetter r && (c2 = '#' || c2 = 'b')
         | _ => false)

/-- Fueled acceptance of `(?:suffix-alternation)*(?:\/[A-G][#b]?)?$`:
every alternative consumes at least one character, so fuel
`cs.length + 1` is always sufficient. -/
def suffixRunFuel : Nat → List Char → Bool
  | 0, _ => false
  | n + 1, cs =>
      matchBassEnd cs || (suffixAltRests cs).any fun rest => suffixRunFuel n rest

def suffixRun (cs : List Char) : Bool := suffixRunFuel (cs.length + 1) cs

/-- `[#b]?` after the root: the greedy branch consumes an accidental, the
backtracking branch does not; `test` succeeds if either continuation
does. -/
def chordAfterRoot (rest : List Char) : Bool :=
  (match rest with
   | c :: rest2 => (c = '#' || c = 'b') && suffixRun rest2
   | [] => false) || suffixRun rest

def chordFullMatch : List Char → Bool
  | [] => false
  | r :: rest => isRootLetter r && chordAfterRoot rest

/-- `isChordToken` from `song-viewer.tsx` lines 94–97 (identical copy in
`reset-password.tsx`): tests the chord grammar against the trimmed
token. -/
def isChordToken (token : List Char) : Bool := chordFullMatch (trimL token)

/-! ### Structural facts about accepted suffixes -/

/-- Relational counterpart of `suffixRunFuel` used to extract structure
from a successful match. -/
inductive SuffixRun : List Char → Prop where
  | base : ∀ cs, matchBassEnd cs = true → SuffixRun cs
  | step : ∀ cs rest, rest ∈ suffixAltRests cs → SuffixRun rest → SuffixRun cs

theorem suffixRunFuel_complete {n : Nat} {cs : List Char}
    (h : suffixRunFuel n cs = true) : SuffixRun cs := by
  induction n generalizing cs with
  | zero => simp [suffixRunFuel] at h
  | succ n ih =>
    simp only [suffixRunFuel, Bool.or_eq_true, List.any_eq_true] at h
    rcases h with h | ⟨rest, hmem, hrun⟩
    · exact .base cs h
    · exact .step cs rest hmem (ih hrun)

theorem suffixAltRests_src_head {cs rest : List Char}
    (h : rest ∈ suffixAltRests cs) :
    ∃ c t, cs = c :: t ∧ c ≠ '#' ∧ c ≠ 'b' := by
  simp only [suffixAltRests, List.mem_append, List.mem_filterMap] at h
  rcases h with ⟨alt, halt, hif⟩ | h
  · have hfacts : alt ≠ [] ∧ alt.headD ' ' ≠ '#' ∧ alt.headD ' ' ≠ 'b' := by
      fin_cases halt <;> decide
    split at hif
    · rename_i hpre
      obtain ⟨a, as, rfl⟩ : ∃ a as, alt = a :: as := by
        cases alt with
        | nil => exact absurd rfl hfacts.1
        | cons a as => exact ⟨a, as, rfl⟩
      cases cs with
      | nil => simp [isPrefixL] at hpre
      | cons c t =>
        simp only [isPrefixL, Bool.and_eq_true, decide_eq_true_eq] at hpre
        refine ⟨c, t, rfl, ?_, ?_⟩
        · rw [← hpre.1]; exact hfacts.2.1
        · rw [← hpre.1]; exact hfacts.2.2
    · simp at hif
  · cases cs with
    | nil =>
      simp [parenAltRest] at h
    | cons c t =>
      simp only [parenAltRest] at h
      split at h
      · rename_i hc
        by_cases hcp : c = '('
        · exact ⟨c, t, rfl, by rw [hcp]; decide, by rw [hcp]; decide⟩
        · rw [if_neg hcp] at hc; simp at hc
      · simp at h

theorem suffixRun_headOk {cs : List Char} (h : SuffixRun cs) :
    cs.head? ≠ some '#' ∧ cs.head? ≠ some 'b' := by
  cases h with
  | base cs hb =>
    cases cs with
    | nil => simp
    | cons c rest =>
      simp only [matchBassEnd, Bool.and_eq_true, decide_eq_true_eq] at hb
      rw [hb.1]
      constructor <;> simp
  | step cs rest hmem _ =>
    obtain ⟨c, t, rfl, h1, h2⟩ := suffixAltRests_src_head hmem
    constructor <;> simp [h1, h2]

theorem splitFirstSlash_eq_none {cs : List Char} (h : '/' ∉ cs) :
    splitFirstSlash cs = none := by
  induction cs with
  | nil => rfl
  | cons c cs ih =>
    simp only [List.mem_cons, not_or] at h
    simp only [splitFirstSlash, if_neg (Ne.symm h.1), ih h.2, Option.map_none']

/-! ## Claim C10 -/

/-- C10: the three duplicated chord-transposition implementations
(`transposeChord` in song-viewer.tsx, `transposeChordForSave` in
songs.tsx, `transposeChord` in reset-password.tsx) are extensionally
equal for every chord string, every integer semitone count, and every
spelling flag; the missing `normalizedSemitones` step in
`transposeChordForSave` never changes the result. -/
theorem claim_C10_theorem (chord : List Char) (d : Int) (f : Bool) :
    transposeChord chord d f = transposeChordForSave chord d f ∧
    transposeChord chord d f = transposeChordRP chord d f :=
  ⟨(transpose_copies_agree chord d f).1.symm,
   (transpose_copies_agree chord d f).2.symm⟩

/-! ## Claim C2 -/

/-- C2 (counterexample): `"Amazing"` fails the §4.1 chord grammar, yet
`transposeChord("Amazing", 1, false)` rewrites it to `"A#mazing"` instead
of returning it unchanged — `transposeChord` transposes any token whose
first character is a letter A–G, grammar-valid or not. -/
theorem claim_C2_counterexample :
    isChordToken ("Amazing".toList) = false ∧
    transposeChord ("Amazing".toList) 1 false = ("A#mazing".toList) ∧
    ("A#mazing".toList) ≠ ("Amazing".toList) := by
  refine ⟨by decide, ?_, by decide⟩
  rw [transposeChord_eq_none (by decide)]
  decide

/-- C2 (amended): `transposeChord` is total (it never throws, being a
function into strings), and it returns a token unchanged whenever the
token contains no `/` and does not begin with a root letter A–G; tokens
beginning with a root letter may be rewritten even when they fail the
§4.1 grammar. -/
theorem claim_C2_theorem (t : List Char) (d : Int) (f : Bool)
    (hs : '/' ∉ t) (hr : t.head?.all (fun c => ! isRootLetter c) = true) :
    transposeChord t d f = t := by
  have h2 : chordRegexMatch t = none := by
    cases t with
    | nil => rfl
    | cons c rest =>
      simp only [List.head?, Option.all_some, Bool.not_eq_true'] at hr
      simp [chordRegexMatch, hr]
  rw [transposeChord_eq_none (splitFirstSlash_eq_none hs), h2]

theorem claim_C2_witness :
    ('/' ∉ ("hello!".toList)) ∧
    transposeChord ("hello!".toList) 7 true = ("hello!".toList) :=
  ⟨by decide, claim_C2_theorem _ 7 true (by decide) (by decide)⟩

/-! ## Line classifier `isChordOnlyLine`
(song-viewer.tsx lines 99–108; identical copy in reset-password.tsx) -/

/-- The section-label vocabulary of the tag-removal regex
`\[(Intro|Verse|Chorus|Bridge|Refrão|Ponte|Solo|Tab|Instrumental|Pre-Chorus|Pré-Refrão|Outro|Final)\]`. -/
def SECTION_TAGS : List (List Char) :=
  [("Intro".toList), ("Verse".toList), ("Chorus".toList),
   ("Bridge".toList), ("Refrão".toList), ("Ponte".toList),
   ("Solo".toList), ("Tab".toList), ("Instrumental".toList),
   ("Pre-Chorus".toList), ("Pré-Refrão".toList),
   ("Outro".toList), ("Final".toList)]

/-- Case folding for the `i` regex flag, covering every cased character
occurring in the tag vocabulary (ASCII letters plus `Ã`/`É`). -/
def toLowerCI (c : Char) : Char :=
  if 'A' ≤ c && c ≤ 'Z' then Char.ofNat (c.toNat + 32)
  else if c = 'Ã' then 'ã'
  else if c = 'É' then 'é'
  else c

/-- Case-insensitive prefix test. -/
def ciPrefix : List Char → List Char → Bool
  | [], _ => true
  | _ :: _, [] => false
  | a :: as, b :: bs => (toLowerCI a = toLowerCI b) && ciPrefix as bs

/-- If a `\[Tag\]` group (case-insensitive) starts at the head of `cs`,
return the remainder after its closing `]`.  The alternatives are tried
in source order; at most one can match since the closing `]` pins the
tag's extent. -/
def tagRestAt (cs : List Char) : Option (List Char) :=
  match cs with
  | c :: rest =>
      if c = '[' then
        SECTION_TAGS.findSome? fun t =>
          if ciPrefix (t ++ (("]").toList)) rest then
            some (rest.drop (t.length + 1))
          else none
      else none
  | [] => none

/-- Global replacement of `\[Tag\]` groups by the empty string.  Each
step either consumes one character or jumps past a matched tag (which is
even shorter), so fuel `cs.length + 1` never runs out. -/
def removeTagsFuel : Nat → List Char → List Char
  | 0, cs => cs
  | n + 1, cs =>
      match cs with
      | [] => []
      | c :: rest =>
          match tagRestAt (c :: rest) with
          | some r => removeTagsFuel n r
          | none => c :: removeTagsFuel n rest

def removeTags (cs : List Char) : List Char :=
  removeTagsFuel (cs.length + 1) cs

/-- `.replace(/[|\-–—]/g, " ")`. -/
def replaceBars (cs : List Char) : List Char :=
  cs.map fun c =>
    if c = '|' || c = '-' || c = '–' || c = '—' then ' ' else c

/-- `cleanLine.trim().split(/\s+/).filter(t => t.length > 0)`: the
composition is exactly whitespace-run tokenisation (the `filter` in the
source only removes the empty-string artifact `split` produces on an
all-whitespace input).  Each step consumes at least one character, so
fuel `cs.length + 1` never runs out. -/
def tokensFuel : Nat → List Char → List (List Char)
  | 0, _ => []
  | n + 1, cs =>
      match cs with
      | [] => []
      | c :: rest =>
          if isJsWs c then tokensFuel n rest
          else
            (c :: rest.takeWhile (fun x => ! isJsWs x)) ::
              tokensFuel n (rest.dropWhile (fun x => ! isJsWs x))

def splitTokens (cs : List Char) : List (List Char) :=
  tokensFuel (cs.length + 1) cs

/-- `isChordOnlyLine`.  The final JS comparison
`chordTokens.length >= tokens.length * 0.5` is computed in binary
floating point, where `tokens.length * 0.5` is exact; for integer
operands it is therefore exactly `2 * chordTokens.length ≥ tokens.length`. -/
def isChordOnlyLine (line : List Char) : Bool :=
  let cleanLine := replaceBars (removeTags line)
  if cleanLine.contains '[' && cleanLine.contains ']' then false
  else
    let tokens := splitTokens cleanLine
    if tokens.length = 0 then false
    else
      let chordTokens := tokens.filter fun t => isChordToken t
      decide (chordTokens.length > 0) &&
        decide (2 * chordTokens.length ≥ tokens.length)

/-! ## Claim C6 -/

/-- The classifier exactly as claim C6 words it, with its step 3 read
literally: "the residual text contains no remaining `[...]` bracket
pair", i.e. no `[` followed later by a `]`. -/
def isChordOnlyLineClaimC6 (line : List Char) : Bool :=
  let residual := replaceBars (removeTags line)
  let hasPair :=
    match residual.dropWhile (fun c => ! (c = '[')) with
    | _ :: rest => rest.contains ']'
    | [] => false
  if hasPair then false
  else
    let tokens := splitTokens residual
    let chordCount := (tokens.filter fun t => isChordToken t).length
    decide (tokens.length ≥ 1) &&
      decide (chordCount ≥ 1) && decide (2 * chordCount ≥ tokens.length)

/-- Claim C6's description amended at step 3 only: return false when the
residual text contains both a `[` and a `]` character, in any order. -/
def isChordOnlyLineSpec (line : List Char) : Bool :=
  let residual := replaceBars (removeTags line)
  if residual.contains '[' && residual.contains ']' then false
  else
    let tokens := splitTokens residual
    let chordCount := (tokens.filter fun t => isChordToken t).length
    decide (tokens.length ≥ 1) &&
      decide (chordCount ≥ 1) && decide (2 * chordCount ≥ tokens.length)

/-- C6 (counterexample): on `"A B ] ["` the claim's literal step 3 finds
no `[...]` pair (the `]` precedes the `[`), tokenises to four tokens of
which two (`A`, `B`) are chords, and so returns true; the code checks
mere presence of both bracket characters and returns false. -/
theorem claim_C6_counterexample :
    isChordOnlyLineClaimC6 ("A B ] [".toList) = true ∧
    isChordOnlyLine ("A B ] [".toList) = false := by
  constructor <;> decide

/-- C6 (amended): `isChordOnlyLine` returns true iff, after removing the
known section-label bracket tags (case-insensitively) and replacing bar
separators with spaces, the residual text does not contain both a `[`
and a `]` character (in any order), tokenises on whitespace to at least
one token, and at least one token and at least 50% of all tokens parse
as chords; in particular `"Dm G C"` is chord-only,
`"Louvado seja o Senhor"` is not, and `"[G]Hello [D]world"` is not. -/
theorem claim_C6_theorem :
    (∀ line : List Char, isChordOnlyLine line = isChordOnlyLineSpec line) ∧
    isChordOnlyLine ("Dm G C".toList) = true ∧
    isChordOnlyLine ("Louvado seja o Senhor".toList) = false ∧
    isChordOnlyLine ("[G]Hello [D]world".toList) = false := by
  refine ⟨fun line => ?_, by decide, by decide, by decide⟩
  simp only [isChordOnlyLine, isChordOnlyLineSpec]
  split
  · rfl
  · split
    · rename_i htok
      simp only [htok]
      simp
    · rename_i htok
      have h1 : (decide ((splitTokens (replaceBars (removeTags line))).length ≥ 1)) = true := by
        simp only [decide_eq_true_eq]
        omega
      simp only [h1, Bool.true_and]
      have h2 : ∀ c : Nat, (decide (c > 0)) = (decide (c ≥ 1)) := by
        intro c
        rcases Nat.eq_zero_or_pos c with h | h <;> simp [h] <;> omega
      rw [h2]

/-! ## Key model and flat-spelling preference -/

/-- `KEYS_MAJOR` (identical in all three source files). -/
def KEYS_MAJOR : List (List Char) :=
  [("C".toList), ("C#".toList), ("Db".toList), ("D".toList),
   ("D#".toList), ("Eb".toList), ("E".toList), ("F".toList),
   ("F#".toList), ("Gb".toList), ("G".toList), ("G#".toList),
   ("Ab".toList), ("A".toList), ("A#".toList), ("Bb".toList),
   ("B".toList)]

/-- `KEYS_MINOR` (identical in all three source files). -/
def KEYS_MINOR : List (List Char) :=
  [("Cm".toList), ("C#m".toList), ("Dbm".toList), ("Dm".toList),
   ("D#m".toList), ("Ebm".toList), ("Em".toList), ("Fm".toList),
   ("F#m".toList), ("Gbm".toList), ("Gm".toList), ("G#m".toList),
   ("Abm".toList), ("Am".toList), ("A#m".toList), ("Bbm".toList),
   ("Bm".toList)]

/-- `KEYS = [...KEYS_MAJOR, ...KEYS_MINOR]`, the 34 canonical key names. -/
def KEYS : List (List Char) := KEYS_MAJOR ++ KEYS_MINOR

/-- `FLAT_KEYS` constant (song-viewer.tsx lines 45–48; identical copy in
reset-password.tsx). -/
def FLAT_KEYS : List (List Char) :=
  [("F".toList), ("Bb".toList), ("Eb".toList), ("Ab".toList),
   ("Db".toList), ("Gb".toList), ("Cb".toList),
   ("Dm".toList), ("Gm".toList), ("Cm".toList), ("Fm".toList),
   ("Bbm".toList), ("Ebm".toList), ("Abm".toList), ("Dbm".toList),
   ("Gbm".toList), ("Cbm".toList)]

/-- `shouldUseFlats` from song-viewer.tsx lines 54–58. -/
def shouldUseFlats (key : List Char) : Bool :=
  if key.contains 'b' then true
  else if key.contains '#' then false
  else FLAT_KEYS.contains key

/-- `shouldUseFlats` from reset-password.tsx lines 198–202, textually
identical to the song-viewer.tsx copy. -/
def shouldUseFlatsRP (key : List Char) : Bool :=
  if key.contains 'b' then true
  else if key.contains '#' then false
  else FLAT_KEYS.contains key

/-- `getKeyBase`: `key.replace("m", "")` removes the first `m` only. -/
def getKeyBase : List Char → List Char
  | [] => []
  | c :: rest => if c = 'm' then rest else c :: getKeyBase rest

/-- `usesFlats` from songs.tsx lines 58–61. -/
def usesFlats (key : List Char) : Bool :=
  (getKeyBase key).contains 'b'

/-! ## Claim C7 -/

/-- The flat-preference exactly as claim C7 words it: `b` in the name
forces true, `#` forces false, otherwise membership in
{F, Bb, Eb, Ab, Db, Gb, Cb} "or their minor forms" (read literally as
the parallel minors Fm, Bbm, Ebm, Abm, Dbm, Gbm, Cbm). -/
def preferFlatsClaimC7 (key : List Char) : Bool :=
  if key.contains 'b' then true
  else if key.contains '#' then false
  else
    (([("F".toList), ("Bb".toList), ("Eb".toList), ("Ab".toList),
       ("Db".toList), ("Gb".toList), ("Cb".toList)] ++
      [("Fm".toList), ("Bbm".toList), ("Ebm".toList), ("Abm".toList),
       ("Dbm".toList), ("Gbm".toList), ("Cbm".toList)]) : List (List Char)).contains key

/-- The flat-preference of claim C7 with its residual set amended to the
set the code actually uses: the seven flat-preferred majors
{F, Bb, Eb, Ab, Db, Gb, Cb} together with the minors
{Dm, Gm, Cm, Fm, Bbm, Ebm, Abm, Dbm, Gbm, Cbm} (each the relative or
parallel minor of one of those seven majors). -/
def preferFlatsSpec (key : List Char) : Bool :=
  if key.contains 'b' then true
  else if key.contains '#' then false
  else
    (([("F".toList), ("Bb".toList), ("Eb".toList), ("Ab".toList),
       ("Db".toList), ("Gb".toList), ("Cb".toList)] ++
      [("Dm".toList), ("Gm".toList), ("Cm".toList), ("Fm".toList),
       ("Bbm".toList), ("Ebm".toList), ("Abm".toList), ("Dbm".toList),
       ("Gbm".toList), ("Cbm".toList)]) : List (List Char)).contains key

/-- C7 (counterexample): the canonical key `"F"` breaks "every call site
computes this same preference": songs.tsx's `usesFlats` says false while
`shouldUseFlats` says true; and the canonical key `"Dm"` breaks the
claim's description of the residual set even for `shouldUseFlats`, since
`Dm` is not a minor form of the seven listed majors yet the code prefers
flats for it. -/
theorem claim_C7_counterexample :
    (("F".toList) ∈ KEYS ∧ usesFlats ("F".toList) = false ∧
      shouldUseFlats ("F".toList) = true) ∧
    (("Dm".toList) ∈ KEYS ∧ preferFlatsClaimC7 ("Dm".toList) = false ∧
      shouldUseFlats ("Dm".toList) = true) := by
  constructor <;> refine ⟨by decide, by decide, by decide⟩

/-- C7 (amended): for every canonical key name, the two `shouldUseFlats`
copies (song-viewer.tsx and reset-password.tsx) both compute: true if the
name contains `b`, else false if it contains `#`, else membership in the
fixed set {F, Bb, Eb, Ab, Db, Gb, Cb} ∪ {Dm, Gm, Cm, Fm, Bbm, Ebm, Abm,
Dbm, Gbm, Cbm}; songs.tsx's `usesFlats` instead tests whether the base
name contains `b`, and agrees with them except on F, Dm, Gm, Cm and Fm. -/
theorem claim_C7_theorem : ∀ k ∈ KEYS,
    shouldUseFlats k = preferFlatsSpec k ∧
    shouldUseFlatsRP k = shouldUseFlats k ∧
    (usesFlats k = shouldUseFlats k ↔
      k ∉ ([("F".toList), ("Dm".toList), ("Gm".toList), ("Cm".toList),
            ("Fm".toList)] : List (List Char))) := by
  decide

theorem claim_C7_witness :
    (("F".toList) ∈ KEYS) ∧
    (shouldUseFlats ("F".toList) = preferFlatsSpec ("F".toList) ∧
     shouldUseFlatsRP ("F".toList) = shouldUseFlats ("F".toList) ∧
     (usesFlats ("F".toList) = shouldUseFlats ("F".toList) ↔
       ("F".toList) ∉ ([("F".toList), ("Dm".toList), ("Gm".toList),
         ("Cm".toList), ("Fm".toList)] : List (List Char)))) :=
  ⟨by decide, claim_C7_theorem _ (by decide)⟩

/-! ## Inline notation parser
`parseLineWithChords` (song-viewer.tsx lines 149–167) splits the line on
`/(\[[A-G][#b]?[^\]]*\])/g` and walks the parts, accumulating lyric text
and pushing `(chord, position)` markers.  Splitting on a global regex is
exactly: repeatedly find the leftmost occurrence of the pattern
(`scanBracket`) and cut there; the parts between matches contain no
occurrence, so the per-part re-test in the loop body is equivalent to the
cut itself.  Since `[#b]?[^\]]*` and `[^\]]*` denote the same language
(`#`/`b` are not `]`), an occurrence starts at a `[` immediately followed
by a letter A–G and runs to the next `]`. -/

/-- Attempt `[A-G][#b]?[^\]]*\]` immediately after a `[`: returns the
captured content and the remainder after the closing `]`. -/
def tryBracketAt (cs : List Char) : Option (List Char × List Char) :=
  match cs with
  | r :: rest =>
      if isRootLetter r then
        match rest.dropWhile (fun c => ! (c = ']')) with
        | _ :: after => some (r :: rest.takeWhile (fun c => ! (c = ']')), after)
        | [] => none
      else none
  | [] => none

/-- Leftmost occurrence of `\[[A-G][#b]?[^\]]*\]`: returns
(text before, captured content, remainder after). -/
def scanBracket : List Char → Option (List Char × List Char × List Char)
  | [] => none
  | c :: cs =>
      if c = '[' then
        match tryBracketAt cs with
        | some (content, after) => some ([], content, after)
        | none => (scanBracket cs).map fun t => (c :: t.1, t.2.1, t.2.2)
      else (scanBracket cs).map fun t => (c :: t.1, t.2.1, t.2.2)

/-- The part-walking loop of `parseLineWithChords`: `pos` is the
accumulated lyric length (`currentPos` in the source).  Each match
strictly shrinks the remainder, so fuel `cs.length + 1` never runs
out. -/
def parseLoopFuel : Nat → List Char → Nat → List Char × List (List Char × Nat)
  | 0, cs, _ => (cs, [])
  | n + 1, cs, pos =>
      match scanBracket cs with
      | none => (cs, [])
      | some (before, content, after) =>
          let rest := parseLoopFuel n after (pos + before.length)
          (before ++ rest.1, (content, pos + before.length) :: rest.2)

/-- `parseLineWithChords`: returns `(lyrics, chords)`. -/
def parseLineWithChords (line : List Char) :
    List Char × List (List Char × Nat) :=
  parseLoopFuel (line.length + 1) line 0

/-- Modelled from the spec: `serializeLine` (§4.4) has no standalone
source function (its insertion effect is realised case-by-case by
`handleChordSubmit`); this is the serialization procedure exactly as the
spec and claim C3 word it: before appending the character at index `i`,
emit `[chord]` for every marker whose offset equals `i`, in original
relative order; after the loop, append the markers whose offset equals
the lyric length. -/
def emitChords : List (List Char × Nat) → List Char
  | [] => []
  | m :: rest => '[' :: m.1 ++ ']' :: emitChords rest

def serGo : List Char → List (List Char × Nat) → Nat → List Char
  | [], ms, i => emitChords (ms.filter fun m => decide (m.2 = i))
  | c :: rest, ms, i =>
      emitChords (ms.filter fun m => decide (m.2 = i)) ++
        c :: serGo rest ms (i + 1)

def serializeLine (lyrics : List Char) (chords : List (List Char × Nat)) :
    List Char :=
  serGo lyrics chords 0

/-! ### Facts about the bracket scan -/

theorem dropWhile_cons_head {p : Char → Bool} {l : List Char} {h : Char}
    {t : List Char} (hd : l.dropWhile p = h :: t) : p h = false := by
  induction l with
  | nil => simp [List.dropWhile] at hd
  | cons x xs ih =>
    simp only [List.dropWhile] at hd
    cases hp : p x with
    | true => rw [hp] at hd; exact ih (by simpa using hd)
    | false => rw [hp] at hd; cases hd; exact hp

theorem takeWhile_append_all {p : Char → Bool} {l1 l2 : List Char}
    (h : ∀ x ∈ l1, p x = true) :
    (l1 ++ l2).takeWhile p = l1 ++ l2.takeWhile p := by
  induction l1 with
  | nil => simp
  | cons x xs ih =>
    simp only [List.cons_append, List.takeWhile_cons,
      h x (List.mem_cons_self x xs)]
    rw [ih fun y hy => h y (List.mem_cons_of_mem x hy)]
    simp

theorem dropWhile_append_all {p : Char → Bool} {l1 l2 : List Char}
    (h : ∀ x ∈ l1, p x = true) :
    (l1 ++ l2).dropWhile p = l2.dropWhile p := by
  induction l1 with
  | nil => simp
  | cons x xs ih =>
    simp only [List.cons_append, List.dropWhile_cons,
      h x (List.mem_cons_self x xs)]
    exact ih fun y hy => h y (List.mem_cons_of_mem x hy)

theorem tryBracketAt_shape {cs content after : List Char}
    (h : tryBracketAt cs = some (content, after)) :
    ∃ r inner, cs = r :: (inner ++ ']' :: after) ∧ content = r :: inner ∧
      isRootLetter r = true ∧ ']' ∉ inner := by
  cases cs with
  | nil => simp [tryBracketAt] at h
  | cons r rest =>
    simp only [tryBracketAt] at h
    split at h
    · rename_i hroot
      cases hd : rest.dropWhile (fun c => ! (c = ']')) with
      | nil => rw [hd] at h; simp at h
      | cons x after' =>
        rw [hd] at h
        obtain ⟨h1, rfl⟩ :
            r :: rest.takeWhile (fun c => ! (c = ']')) = content ∧
              after' = after := by simpa using h
        have hx : x = ']' := by
          have := dropWhile_cons_head hd
          simpa using this
        refine ⟨r, rest.takeWhile (fun c => ! (c = ']')), ?_, h1.symm, ?_, ?_⟩
        · subst hx
          conv_lhs => rw [← List.takeWhile_append_dropWhile
            (fun c => ! (c = ']')) rest]
          rw [hd]
        · assumption
        · intro hmem
          have := List.mem_takeWhile_imp hmem
          simp at this
    · simp at h

theorem tryBracketAt_complete {r : Char} {inner v : List Char}
    (hroot : isRootLetter r = true) (hin : ']' ∉ inner) :
    tryBracketAt (r :: (inner ++ ']' :: v)) = some (r :: inner, v) := by
  have hall : ∀ x ∈ inner, (fun c => ! (c = ']')) x = true := by
    intro x hx
    simp only [Bool.not_eq_true']
    exact decide_eq_false fun hc => hin (hc ▸ hx)
  simp only [tryBracketAt, hroot, if_true]
  rw [dropWhile_append_all hall, takeWhile_append_all hall]
  simp [List.dropWhile, List.takeWhile]

theorem tryBracketAt_none_transport {y : Char} {zt zt' : List Char}
    (h : tryBracketAt (y :: zt) = none) (hzt : ']' ∈ zt) :
    tryBracketAt (y :: zt') = none := by
  cases hroot : isRootLetter y with
  | false => simp [tryBracketAt, hroot]
  | true =>
    exfalso
    cases hd : zt.dropWhile (fun c => ! (c = ']')) with
    | nil =>
      rw [List.dropWhile_eq_nil_iff] at hd
      have := hd _ hzt
      simp at this
    | cons x after' =>
      simp [tryBracketAt, hroot, hd] at h

theorem scanBracket_shape {cs b c a : List Char}
    (h : scanBracket cs = some (b, c, a)) :
    cs = b ++ '[' :: (c ++ ']' :: a) ∧
      ∃ r inner, c = r :: inner ∧ isRootLetter r = true ∧ ']' ∉ inner := by
  induction cs generalizing b with
  | nil => simp [scanBracket] at h
  | cons x cs' ih =>
    simp only [scanBracket] at h
    by_cases hx : x = '['
    · rw [if_pos hx] at h
      cases ht : tryBracketAt cs' with
      | some p =>
        obtain ⟨content, after⟩ := p
        rw [ht] at h
        obtain ⟨rfl, rfl, rfl⟩ : [] = b ∧ content = c ∧ after = a := by
          simpa using h
        obtain ⟨r, inner, hcs, hcont, hroot, hnin⟩ := tryBracketAt_shape ht
        subst hx
        refine ⟨?_, r, inner, hcont, hroot, hnin⟩
        rw [hcs, hcont]
        simp
      | none =>
        rw [ht] at h
        cases hs : scanBracket cs' with
        | none => rw [hs] at h; simp at h
        | some t =>
          obtain ⟨b', c', a'⟩ := t
          rw [hs] at h
          simp only [Option.map_some'] at h
          obtain ⟨rfl, rfl, rfl⟩ : x :: b' = b ∧ c' = c ∧ a' = a := by
            simpa using h
          obtain ⟨hshape, hfact⟩ := ih hs
          exact ⟨by rw [List.cons_append, ← hshape], hfact⟩
    · rw [if_neg hx] at h
      cases hs : scanBracket cs' with
      | none => rw [hs] at h; simp at h
      | some t =>
        obtain ⟨b', c', a'⟩ := t
        rw [hs] at h
        simp only [Option.map_some'] at h
        obtain ⟨rfl, rfl, rfl⟩ : x :: b' = b ∧ c' = c ∧ a' = a := by
          simpa using h
        obtain ⟨hshape, hfact⟩ := ih hs
        exact ⟨by rw [List.cons_append, ← hshape], hfact⟩

theorem scanBracket_before {cs b c a : List Char}
    (h : scanBracket cs = some (b, c, a)) :
    ∀ v : List Char, scanBracket (b ++ '[' :: (c ++ ']' :: v)) =
      some (b, c, v) := by
  induction cs generalizing b with
  | nil => simp [scanBracket] at h
  | cons x cs' ih =>
    intro v
    simp only [scanBracket] at h
    by_cases hx : x = '['
    · rw [if_pos hx] at h
      cases ht : tryBracketAt cs' with
      | some p =>
        obtain ⟨content, after⟩ := p
        rw [ht] at h
        obtain ⟨rfl, rfl, rfl⟩ : [] = b ∧ content = c ∧ after = a := by
          simpa using h
        obtain ⟨r, inner, hcs, hcont, hroot, hnin⟩ := tryBracketAt_shape ht
        have hc : tryBracketAt (content ++ ']' :: v) = some (content, v) := by
          rw [hcont]
          rw [show r :: inner ++ ']' :: v = r :: (inner ++ ']' :: v)
            from rfl]
          exact tryBracketAt_complete hroot hnin
        simp [scanBracket, hc]
      | none =>
        rw [ht] at h
        cases hs : scanBracket cs' with
        | none => rw [hs] at h; simp at h
        | some t =>
          obtain ⟨b', c', a'⟩ := t
          rw [hs] at h
          simp only [Option.map_some'] at h
          obtain ⟨rfl, rfl, rfl⟩ : x :: b' = b ∧ c' = c ∧ a' = a := by
            simpa using h
          subst hx
          have htail := ih hs v
          obtain ⟨hshape, -⟩ := scanBracket_shape hs
          have hnone : tryBracketAt (b' ++ '[' :: (c' ++ ']' :: v)) =
              none := by
            cases b' with
            | nil =>
              simp [tryBracketAt, show isRootLetter '[' = false by decide]
            | cons y b'' =>
              rw [hshape] at ht
              have hmem : ']' ∈ b'' ++ '[' :: (c' ++ ']' :: a') := by simp
              have := @tryBracketAt_none_transport y
                (b'' ++ '[' :: (c' ++ ']' :: a'))
                (b'' ++ '[' :: (c' ++ ']' :: v)) ht hmem
              simpa using this
          simp [scanBracket, hnone, htail]
    · rw [if_neg hx] at h
      cases hs : scanBracket cs' with
      | none => rw [hs] at h; simp at h
      | some t =>
        obtain ⟨b', c', a'⟩ := t
        rw [hs] at h
        simp only [Option.map_some'] at h
        obtain ⟨rfl, rfl, rfl⟩ : x :: b' = b ∧ c' = c ∧ a' = a := by
          simpa using h
        have htail := ih hs v
        simp [scanBracket, if_neg hx, htail]

theorem scanBracket_after_lt {cs b c a : List Char}
    (h : scanBracket cs = some (b, c, a)) : a.length < cs.length := by
  obtain ⟨hshape, -⟩ := scanBracket_shape h
  rw [hshape]
  simp only [List.length_append, List.length_cons]
  omega

theorem parseLoopFuel_congr : ∀ {n m : Nat} {cs : List Char} {pos : Nat},
    cs.length < n → cs.length < m →
    parseLoopFuel n cs pos = parseLoopFuel m cs pos := by
  intro n
  induction n with
  | zero => intro m cs pos hn; omega
  | succ n ih =>
    intro m cs pos hn hm
    cases m with
    | zero => omega
    | succ m =>
      simp only [parseLoopFuel]
      cases h : scanBracket cs with
      | none => rfl
      | some t =>
        obtain ⟨b, c, a⟩ := t
        have hlt := scanBracket_after_lt h
        dsimp only
        rw [ih (show a.length < n by omega) (show a.length < m by omega)]

theorem parseLoopFuel_shift : ∀ (n : Nat) (cs : List Char) (p : Nat),
    parseLoopFuel n cs p =
      ((parseLoopFuel n cs 0).1,
        (parseLoopFuel n cs 0).2.map fun m => (m.1, m.2 + p)) := by
  intro n
  induction n with
  | zero => intro cs p; simp [parseLoopFuel]
  | succ n ih =>
    intro cs p
    simp only [parseLoopFuel]
    cases h : scanBracket cs with
    | none => simp
    | some t =>
      obtain ⟨b, c, a⟩ := t
      simp only [List.map_cons]
      rw [ih a (p + b.length), ih a (0 + b.length)]
      simp only [List.map_map]
      refine congrArg (fun z => (b ++ (parseLoopFuel n a 0).1, z)) ?_
      refine congrArg₂ (fun x y => (c, x) :: y) (by omega) ?_
      apply List.map_congr_left
      intro m _
      simp only [Function.comp]
      refine congrArg (fun z => (m.1, z)) ?_
      omega

/-- One-step unfolding of `parseLineWithChords` when the line contains a
bracket occurrence. -/
theorem parse_unfold {cs b c a : List Char}
    (h : scanBracket cs = some (b, c, a)) :
    parseLineWithChords cs =
      (b ++ (parseLineWithChords a).1,
        (c, b.length) ::
          (parseLineWithChords a).2.map fun m => (m.1, m.2 + b.length)) := by
  have hlt := scanBracket_after_lt h
  show parseLoopFuel (cs.length + 1) cs 0 = _
  simp only [parseLoopFuel, h]
  rw [parseLoopFuel_congr hlt
    (show a.length < a.length + 1 by omega)]
  rw [parseLoopFuel_shift (a.length + 1) a (0 + b.length)]
  show (b ++ (parseLineWithChords a).1, _) = _
  refine congrArg (fun z => (b ++ (parseLineWithChords a).1, z)) ?_
  refine congrArg₂ (fun x y => (c, x) :: y) (by omega) ?_
  apply List.map_congr_left
  intro m _
  refine congrArg (fun z => (m.1, z)) ?_
  omega

theorem parse_scan_none {cs : List Char} (h : scanBracket cs = none) :
    parseLineWithChords cs = (cs, []) := by
  show parseLoopFuel (cs.length + 1) cs 0 = _
  simp only [parseLoopFuel, h]

/-! ### Serializer lemmas -/

theorem serGo_nil_chords (L : List Char) (i : Nat) : serGo L [] i = L := by
  induction L generalizing i with
  | nil => rfl
  | cons c rest ih =>
    simp only [serGo, List.filter_nil, emitChords]
    rw [ih]
    simp

theorem serGo_skip {j i : Nat} (hj : j < i) (L : List Char)
    (c : List Char) (ms : List (List Char × Nat)) :
    serGo L ((c, j) :: ms) i = serGo L ms i := by
  induction L generalizing i with
  | nil =>
    simp only [serGo, List.filter_cons]
    rw [if_neg]
    simp only [decide_eq_true_eq]
    omega
  | cons ch rest ih =>
    simp only [serGo, List.filter_cons]
    rw [ih (by omega), if_neg]
    simp only [decide_eq_true_eq]
    omega

theorem serGo_emit (L : List Char) (c : List Char)
    (ms : List (List Char × Nat)) (i : Nat) :
    serGo L ((c, i) :: ms) i = '[' :: (c ++ ']' :: serGo L ms i) := by
  cases L with
  | nil =>
    simp only [serGo, List.filter_cons]
    rw [if_pos (by simp)]
    simp [emitChords]
  | cons ch rest =>
    simp only [serGo, List.filter_cons]
    rw [if_pos (by simp), serGo_skip (by omega)]
    simp [emitChords]

theorem serGo_pre (b : List Char) {L : List Char}
    {ms : List (List Char × Nat)} {i : Nat}
    (h : ∀ m ∈ ms, i + b.length ≤ m.2) :
    serGo (b ++ L) ms i = b ++ serGo L ms (i + b.length) := by
  induction b generalizing i with
  | nil => simp
  | cons x b' ih =>
    have hfil : ms.filter (fun m => decide (m.2 = i)) = [] := by
      rw [List.filter_eq_nil_iff]
      intro m hm
      have := h m hm
      simp only [List.length_cons] at this
      simp only [decide_eq_true_eq]
      omega
    have harg : ∀ m ∈ ms, (i + 1) + b'.length ≤ m.2 := by
      intro m hm
      have := h m hm
      simp only [List.length_cons] at this
      omega
    simp only [List.cons_append, serGo, hfil, emitChords, List.nil_append,
      List.append_eq]
    rw [ih harg]
    simp only [List.length_cons]
    refine congrArg (fun z => x :: (b' ++ z)) ?_
    refine congrArg (serGo L ms) ?_
    omega

theorem emitChords_shift (ms : List (List Char × Nat)) (k : Nat) :
    emitChords (ms.map fun m => (m.1, m.2 + k)) = emitChords ms := by
  induction ms with
  | nil => rfl
  | cons m rest ih => simp only [List.map_cons, emitChords]; rw [ih]

theorem filter_offset_shift (ms : List (List Char × Nat)) (i k : Nat) :
    (ms.map fun m => (m.1, m.2 + k)).filter (fun m => decide (m.2 = i + k)) =
      (ms.filter fun m => decide (m.2 = i)).map fun m => (m.1, m.2 + k) := by
  induction ms with
  | nil => rfl
  | cons m rest ih =>
    simp only [List.map_cons, List.filter_cons]
    by_cases hm : m.2 = i
    · rw [if_pos (by simp only [decide_eq_true_eq]; omega),
        if_pos (by simp only [decide_eq_true_eq]; omega), List.map_cons, ih]
    · rw [if_neg (by simp only [decide_eq_true_eq]; omega),
        if_neg (by simp only [decide_eq_true_eq]; omega), ih]

theorem serGo_shift (L : List Char) (ms : List (List Char × Nat))
    (i k : Nat) :
    serGo L (ms.map fun m => (m.1, m.2 + k)) (i + k) = serGo L ms i := by
  induction L generalizing i with
  | nil =>
    simp only [serGo]
    rw [filter_offset_shift, emitChords_shift]
  | cons ch rest ih =>
    simp only [serGo]
    rw [filter_offset_shift, emitChords_shift]
    rw [show i + k + 1 = (i + 1) + k by omega, ih]

/-! ### Round trip (claim C3) and invariants (claim C9) -/

theorem parse_serialize_roundtrip (cs : List Char) :
    parseLineWithChords
      (serializeLine (parseLineWithChords cs).1 (parseLineWithChords cs).2) =
      parseLineWithChords cs := by
  cases h : scanBracket cs with
  | none =>
    rw [parse_scan_none h]
    show parseLineWithChords (serGo cs [] 0) = (cs, [])
    rw [serGo_nil_chords]
    exact parse_scan_none h
  | some t =>
    obtain ⟨b, c, a⟩ := t
    have hlt := scanBracket_after_lt h
    have ih := parse_serialize_roundtrip a
    rw [parse_unfold h]
    show parseLineWithChords
      (serGo (b ++ (parseLineWithChords a).1)
        ((c, b.length) ::
          ((parseLineWithChords a).2.map fun m => (m.1, m.2 + b.length))) 0) = _
    have hbound : ∀ m ∈ ((c, b.length) ::
        ((parseLineWithChords a).2.map fun m => (m.1, m.2 + b.length))),
        0 + b.length ≤ m.2 := by
      intro m hm
      simp only [List.mem_cons, List.mem_map] at hm
      rcases hm with rfl | ⟨m', _, rfl⟩ <;> omega
    rw [serGo_pre b hbound]
    rw [show (0 + b.length) = b.length by omega]
    rw [serGo_emit]
    rw [show serGo (parseLineWithChords a).1
        ((parseLineWithChords a).2.map fun m => (m.1, m.2 + b.length))
        b.length =
        serGo (parseLineWithChords a).1 (parseLineWithChords a).2 0 from by
      have := serGo_shift (parseLineWithChords a).1
        (parseLineWithChords a).2 0 b.length
      simpa using this]
    rw [parse_unfold (scanBracket_before h
      (serGo (parseLineWithChords a).1 (parseLineWithChords a).2 0))]
    have ih' : parseLineWithChords
        (serGo (parseLineWithChords a).1 (parseLineWithChords a).2 0) =
        parseLineWithChords a := ih
    rw [ih']
termination_by cs.length
decreasing_by exact hlt

/-- C3: parsing any line, serializing the resulting
(lyricText, chordMarkers) pair exactly as §4.4 describes, and re-parsing
the serialized line yields the same pair — the pair is a stable normal
form of the parse/serialize round trip. -/
theorem claim_C3_theorem (x : List Char) :
    parseLineWithChords
      (serializeLine (parseLineWithChords x).1 (parseLineWithChords x).2) =
      parseLineWithChords x :=
  parse_serialize_roundtrip x

theorem parse_marker_invariants (x : List Char) :
    (∀ m ∈ (parseLineWithChords x).2,
      m.2 ≤ (parseLineWithChords x).1.length) ∧
    (parseLineWithChords x).2.Pairwise fun p q => p.2 ≤ q.2 := by
  cases h : scanBracket x with
  | none => rw [parse_scan_none h]; simp
  | some t =>
    obtain ⟨b, c, a⟩ := t
    have hlt := scanBracket_after_lt h
    have ih := parse_marker_invariants a
    rw [parse_unfold h]
    constructor
    · intro m hm
      simp only [List.mem_cons, List.mem_map] at hm
      simp only [List.length_append]
      rcases hm with rfl | ⟨m', hm', rfl⟩
      · exact Nat.le_add_right _ _
      · have h2 := ih.1 m' hm'
        show m'.2 + b.length ≤ b.length + (parseLineWithChords a).1.length
        omega
    · refine List.Pairwise.cons ?_ ?_
      · intro q hq
        simp only [List.mem_map] at hq
        obtain ⟨m', _, rfl⟩ := hq
        show b.length ≤ m'.2 + b.length
        omega
      · refine List.Pairwise.map _ ?_ ih.2
        intro p q hpq
        show p.2 + b.length ≤ q.2 + b.length
        omega
termination_by x.length
decreasing_by exact hlt

/-- C9: for every input line, the `(lyrics, chords)` pair produced by
`parseLineWithChords` satisfies the ChordMarker invariant: every marker
offset is at most the lyric length (offsets are naturals, hence
non-negative), and offsets are non-decreasing in list order — in
particular markers sharing an offset keep their original left-to-right
scan (insertion) order, which is the list order by construction. -/
theorem claim_C9_theorem (x : List Char) :
    (∀ m ∈ (parseLineWithChords x).2,
      m.2 ≤ (parseLineWithChords x).1.length) ∧
    (parseLineWithChords x).2.Pairwise fun p q => p.2 ≤ q.2 :=
  parse_marker_invariants x

/-! ### Claim C8 -/

theorem scanBracket_clean_before {u : List Char} (hu : '[' ∉ u)
    {c v : List Char} (hc : tryBracketAt (c ++ ']' :: v) = some (c, v)) :
    scanBracket (u ++ '[' :: (c ++ ']' :: v)) = some (u, c, v) := by
  induction u with
  | nil => simp [scanBracket, hc]
  | cons x u' ih =>
    simp only [List.mem_cons, not_or] at hu
    have hx : ¬ (x = '[') := fun hh => hu.1 hh.symm
    have ih' := ih hu.2
    simp only [List.append_eq] at ih' ⊢
    simp only [List.cons_append, scanBracket, List.append_eq, if_neg hx,
      ih', Option.map_some']

/-- C8 (counterexample): the bracketed group `[hello]` is not accepted as
a marker — its content does not begin with a letter A–G, so the parser
leaves the whole group in the lyric text and produces no ChordMarker,
contradicting "any bracketed content is accepted as a marker". -/
theorem claim_C8_counterexample :
    parseLineWithChords ("[hello]".toList) = (("[hello]".toList), []) := by
  decide

/-- C8 (amended): a bracketed group is accepted as a marker iff its
content begins with a letter A–G (the rest of the content is arbitrary
text without `]`, not necessarily grammar-valid); such a group becomes a
ChordMarker carrying its content at the current accumulated lyric-text
length and contributes nothing to the lyric text, while a group not
beginning with A–G stays in the lyric text.  Stated for the leftmost
group: if `u` contains no `[`, parsing `u ++ "[" ++ r::t ++ "]" ++ v`
yields marker `r::t` at offset `u.length` and lyric text `u` followed by
the parse of `v`. -/
theorem claim_C8_theorem (u t v : List Char) (r : Char) (hu : '[' ∉ u)
    (hr : isRootLetter r = true) (ht : ']' ∉ t) :
    parseLineWithChords (u ++ '[' :: ((r :: t) ++ ']' :: v)) =
      (u ++ (parseLineWithChords v).1,
        ((r :: t), u.length) ::
          (parseLineWithChords v).2.map fun m => (m.1, m.2 + u.length)) := by
  apply parse_unfold
  apply scanBracket_clean_before hu
  rw [show (r :: t) ++ ']' :: v = r :: (t ++ ']' :: v) from rfl]
  exact tryBracketAt_complete hr ht

theorem claim_C8_witness :
    ('[' ∉ ("ab".toList)) ∧ isRootLetter 'G' = true ∧
      (']' ∉ ("xyz!".toList)) ∧
    parseLineWithChords
        (("ab".toList) ++ '[' :: (('G' :: ("xyz!".toList)) ++ ']' :: ("cd".toList))) =
      (("abcd".toList), [(('G' :: ("xyz!".toList)), 2)]) := by
  refine ⟨by decide, by decide, by decide, ?_⟩
  rw [claim_C8_theorem _ _ _ _ (by decide) (by decide) (by decide)]
  decide

/-! ## Stacked-to-inline converter
`parseCifraclubContent` (songs.tsx lines 113–200).  The chord-sequence
pattern `^chord(\s+chord)*\s*$` is tested with existence semantics; the
global `match` extraction is greedy: the pattern's tail after each
repetition is entirely optional, so the JS engine commits to the first
alternative (in source order) that matches at each step and never
backtracks. -/

/-- `line.replace(/\s+/g, " ")`: collapse each whitespace run to one
space.  Each step consumes at least one character, so fuel
`cs.length + 1` never runs out. -/
def collapseWsFuel : Nat → List Char → List Char
  | 0, cs => cs
  | n + 1, cs =>
      match cs with
      | [] => []
      | c :: rest =>
          if isJsWs c then ' ' :: collapseWsFuel n (rest.dropWhile isJsWs)
          else c :: collapseWsFuel n rest

def collapseWs (cs : List Char) : List Char :=
  collapseWsFuel (cs.length + 1) cs

/-- Remainders after `[A-G][#b]?` at the head of `cs` (existence
semantics: with and without the optional accidental). -/
def rootAccRests (cs : List Char) : List (List Char) :=
  match cs with
  | r :: rest =>
      if isRootLetter r then
        match rest with
        | c :: rest2 =>
            if c = '#' || c = 'b' then [rest2, rest] else [rest]
        | [] => [[]]
      else []
  | [] => []

/-- All remainders after `(?:suffix-alternation)*` (fuel bounds the
number of iterations; each alternative consumes at least one character,
so fuel `cs.length + 1` reaches every remainder). -/
def starRests : Nat → List Char → List (List Char)
  | 0, cs => [cs]
  | n + 1, cs => cs :: (suffixAltRests cs).flatMap (starRests n)

/-- Remainders after `(?:\/[A-G][#b]?)?`. -/
def bassOptRests (cs : List Char) : List (List Char) :=
  cs ::
    (match cs with
     | c :: r :: rest =>
         if c = '/' && isRootLetter r then
           rest ::
             (match rest with
              | c2 :: rest2 =>
                  if c2 = '#' || c2 = 'b' then [rest2] else []
              | [] => [])
         else []
     | _ => [])

/-- All remainders after one (unanchored) chord token. -/
def chordTokenRests (cs : List Char) : List (List Char) :=
  (rootAccRests cs).flatMap fun r1 =>
    (starRests (r1.length + 1) r1).flatMap bassOptRests

/-- Acceptance of `(?:\s+chord)*\s*$` from a remainder.  A chord begins
with a non-whitespace letter, so `\s+` might as well consume the whole
whitespace run. -/
def seqTailFuel : Nat → List Char → Bool
  | 0, _ => false
  | n + 1, rem =>
      rem.all isJsWs ||
      (decide (rem.takeWhile isJsWs ≠ []) &&
        (chordTokenRests (rem.dropWhile isJsWs)).any (seqTailFuel n))

/-- `chordPattern.test(line)` for
`^[A-G][#b]?suffix*(?:\/[A-G][#b]?)?(?:\s+chord)*\s*$`. -/
def chordSeqTest (cs : List Char) : Bool :=
  (chordTokenRests cs).any (seqTailFuel (cs.length + 1))

/-- Consumed text and remainder of the parenthesised alternative. -/
def parenAltTake (cs : List Char) : Option (List Char × List Char) :=
  match cs with
  | c :: rest =>
      if c = '(' then
        if (rest.takeWhile isParenChar).length > 0 then
          match rest.dropWhile isParenChar with
          | ')' :: after =>
              some ('(' :: (rest.takeWhile isParenChar ++ [')']), after)
          | _ => none
        else none
      else none
  | [] => none

/-- First suffix alternative (in source order) matching at the head of
`cs`: consumed text and remainder. -/
def firstAltTake (cs : List Char) : Option (List Char × List Char) :=
  match SUFFIX_LITERALS.findSome? fun alt =>
      if isPrefixL alt cs then some (alt, cs.drop alt.length) else none with
  | some r => some r
  | none => parenAltTake cs

/-- Greedy `(?:suffix-alternation)*`: keep consuming the first matching
alternative; never backtracks because everything after the star is
optional. -/
def greedyStarFuel : Nat → List Char → List Char × List Char
  | 0, cs => ([], cs)
  | n + 1, cs =>
      match firstAltTake cs with
      | some (tok, rest) =>
          let more := greedyStarFuel n rest
          (tok ++ more.1, more.2)
      | none => ([], cs)

/-- Greedy match of one chord token starting exactly here (JS
`match(/.../g)` at a position): root, greedy optional accidental, greedy
star, greedy optional slash bass. -/
def greedyChordAt (cs : List Char) : Option (List Char × List Char) :=
  match cs with
  | r :: rest =>
      if isRootLetter r then
        let accPair :=
          match rest with
          | c :: rest2 =>
              if c = '#' || c = 'b' then ([c], rest2) else (([] : List Char), rest)
          | [] => (([] : List Char), ([] : List Char))
        let starPair := greedyStarFuel (accPair.2.length + 1) accPair.2
        let bassPair :=
          match starPair.2 with
          | c :: r2 :: rest3 =>
              if c = '/' && isRootLetter r2 then
                match rest3 with
                | c2 :: rest4 =>
                    if c2 = '#' || c2 = 'b' then ([c, r2, c2], rest4)
                    else ([c, r2], rest3)
                | [] => ([c, r2], ([] : List Char))
              else (([] : List Char), starPair.2)
          | _ => (([] : List Char), starPair.2)
        some (r :: (accPair.1 ++ starPair.1 ++ bassPair.1), bassPair.2)
      else none
  | [] => none

/-- `cleanLine.match(new RegExp(singleChordPattern, "g"))`: successive
leftmost greedy matches.  A match consumes at least its root letter, so
fuel `cs.length + 1` never runs out. -/
def matchAllChordsFuel : Nat → List Char → List (List Char)
  | 0, _ => []
  | n + 1, cs =>
      match cs with
      | [] => []
      | c :: rest =>
          match greedyChordAt (c :: rest) with
          | some (tok, after) => tok :: matchAllChordsFuel n after
          | none => matchAllChordsFuel n rest

def matchAllChords (cs : List Char) : List (List Char) :=
  matchAllChordsFuel (cs.length + 1) cs

/-- The chord-column scan of the paired branch: iterate over the chars of
the original `line` while `pos` (which can jump ahead of the iteration
index after a match) tracks the tested column. -/
def chordPosLoop (line : List Char) :
    List Char → Nat → List (List Char) → List (Nat × List Char)
  | [], _, _ => []
  | c :: cs, pos, chords =>
      match chords with
      | [] => chordPosLoop line cs (pos + 1) []
      | ch :: more =>
          if (c != ' ') && isPrefixL ch (line.drop pos) then
            (pos, ch) :: chordPosLoop line cs (pos + ch.length) more
          else chordPosLoop line cs (pos + 1) (ch :: more)

def flushAll : List (Nat × List Char) → List Char
  | [] => []
  | p :: more => '[' :: p.2 ++ ']' :: flushAll more

/-- The merge walk over the lyric line: before each character, flush
every chord whose column is ≤ the running counter; afterwards flush the
rest.  Each step consumes a character or a pending chord, so fuel
`chars.length + ps.length + 1` never runs out. -/
def mergeWalkFuel : Nat → List Char → Nat → List (Nat × List Char) →
    List Char
  | 0, chars, _, ps => chars ++ flushAll ps
  | n + 1, chars, lyricPos, ps =>
      match chars, ps with
      | [], ps => flushAll ps
      | c :: cs, [] => c :: mergeWalkFuel n cs (lyricPos + 1) []
      | c :: cs, (p, ch) :: more =>
          if p ≤ lyricPos then
            '[' :: ch ++ ']' :: mergeWalkFuel n (c :: cs) lyricPos more
          else c :: mergeWalkFuel n cs (lyricPos + 1) ((p, ch) :: more)

def mergeWalk (chars : List Char) (ps : List (Nat × List Char)) :
    List Char :=
  mergeWalkFuel (chars.length + ps.length + 1) chars 0 ps

/-- `chords.map(c => "[" + c + "]").join(" ")`. -/
def joinSpace : List (List Char) → List Char
  | [] => []
  | [x] => x
  | x :: y :: rest => x ++ ' ' :: joinSpace (y :: rest)

/-- The three non-paired branches of the loop body: returns the line to
push (if any) and the updated provisional key. -/
def ccSingle (line : List Char) (dk : List Char) :
    Option (List Char) × List Char :=
  let cleanLine := trimL (collapseWs line)
  if chordSeqTest cleanLine then
    let chords := matchAllChords cleanLine
    if chords.length > 0 then
      let dk' :=
        if decide (dk = []) && decide (chords.headD [] ≠ []) then
          chords.headD []
        else dk
      (some (joinSpace (chords.map fun c => '[' :: (c ++ [']']))), dk')
    else (none, dk)
  else if trimL line ≠ [] then (some line, dk)
  else (some [], dk)

/-- The `for` loop of `parseCifraclubContent`: `i` advances by 2 in the
paired branch (chord line over non-chord lyric line) and by 1 otherwise;
`dk` is the provisional `detectedKey` (`[]` = unset).  The inner `[]`
case of the paired branch is unreachable (an empty `nextLine` fails the
pairing test) and mirrors the same emission. -/
def ccLoop : List (List Char) → List Char →
    List (List Char) × List Char
  | [], dk => ([], dk)
  | line :: restLines, dk =>
      let nextLine := restLines.headD []
      let cleanLine := trimL (collapseWs line)
      if chordSeqTest cleanLine && decide (trimL nextLine ≠ []) &&
          ! chordSeqTest (trimL nextLine) then
        let chords := matchAllChords cleanLine
        let dk' :=
          if decide (chords.length > 0) && decide (dk = []) &&
              decide (chords.headD [] ≠ []) then
            chords.headD []
          else dk
        let positions := chordPosLoop line line 0 chords
        let combined := mergeWalk nextLine positions
        match restLines with
        | [] => ([combined], dk')
        | _ :: rest' =>
            let res := ccLoop rest' dk'
            (combined :: res.1, res.2)
      else
        match ccSingle line dk with
        | (some out, dk') =>
            let res := ccLoop restLines dk'
            (out :: res.1, res.2)
        | (none, dk') =>
            let res := ccLoop restLines dk'
            (res.1, res.2)

/-- `rawContent.split("\n")`. -/
def splitNl : List Char → List (List Char)
  | [] => [[]]
  | c :: rest =>
      if c = '\n' then [] :: splitNl rest
      else
        match splitNl rest with
        | l :: ls => (c :: l) :: ls
        | [] => [[c]]

/-- `result.join("\n")`. -/
def joinNl : List (List Char) → List Char
  | [] => []
  | [x] => x
  | x :: y :: rest => x ++ '\n' :: joinNl (y :: rest)

/-- `detectedKey.match(/^([A-G][#b]?m?)/)`: the captured group, when the
anchored match succeeds. -/
def keyPrefix (dk : List Char) : Option (List Char) :=
  match dk with
  | r :: rest =>
      if isRootLetter r then
        let accPair :=
          match rest with
          | c :: r2 =>
              if c = '#' || c = 'b' then ([c], r2) else (([] : List Char), rest)
          | [] => (([] : List Char), ([] : List Char))
        let m :=
          match accPair.2 with
          | c :: _ => if c = 'm' then ['m'] else ([] : List Char)
          | [] => ([] : List Char)
        some (r :: (accPair.1 ++ m))
      else none
  | [] => none

/-- The post-loop normalization and defaulting of `detectedKey`
(`!detectedKey` is the JS emptiness test, modelled by `decide (· = [])`). -/
def finalizeDetectedKey (dk : List Char) : List Char :=
  let dk1 :=
    if dk ≠ [] then
      match keyPrefix dk with
      | some p => p
      | none => dk
    else dk
  if decide (dk1 = []) || ! KEYS.contains dk1 then ("C".toList) else dk1

/-- `parseCifraclubContent`: returns `(content, detectedKey)`. -/
def parseCifraclubContent (raw : List Char) : List Char × List Char :=
  let res := ccLoop (splitNl raw) []
  (joinNl res.1, finalizeDetectedKey res.2)

/-! ## Claim C4 -/

/-- C4 (counterexample): on the stacked input `"G          D"` (G at
column 0, D at column 11) over `"Amazing grace"`, the converter does
*not* produce `"[G]Amazing [D]grace"`: the chord at column 11 is flushed
immediately before the lyric character at index 11 (the `c` of `grace`),
not at the start of the word. -/
theorem claim_C4_counterexample :
    (parseCifraclubContent ("G          D\nAmazing grace".toList)).1 ≠
      ("[G]Amazing [D]grace".toList) ∧
    (parseCifraclubContent ("G          D\nAmazing grace".toList)).1 =
      ("[G]Amazing gra[D]ce".toList) := by
  constructor <;> decide

/-- C4 (amended): the stacked-to-inline converter, applied to the two
input lines `"G          D"` (chord line: G at column 0, D at column 11)
followed by `"Amazing grace"`, produces the single output line
`"[G]Amazing gra[D]ce"` (and detects key G): each chord's column maps it
to immediately before the lyric character at exactly that column index
(the character at or after the column). -/
theorem claim_C4_theorem :
    parseCifraclubContent ("G          D\nAmazing grace".toList) =
      (("[G]Amazing gra[D]ce".toList), ("G".toList)) := by
  decide

/-! ## Claim C5 -/

theorem chordSeqTest_head_root {cs : List Char}
    (h : chordSeqTest cs = true) :
    ∃ r t, cs = r :: t ∧ isRootLetter r = true := by
  cases cs with
  | nil => simp [chordSeqTest, chordTokenRests, rootAccRests] at h
  | cons r t =>
    by_cases hr : isRootLetter r = true
    · exact ⟨r, t, rfl, hr⟩
    · exfalso
      simp [chordSeqTest, chordTokenRests, rootAccRests, hr] at h

theorem greedyChordAt_root {r : Char} (t : List Char)
    (hr : isRootLetter r = true) :
    ∃ z a, greedyChordAt (r :: t) = some (r :: z, a) := by
  simp only [greedyChordAt, hr]
  exact ⟨_, _, rfl⟩

theorem matchAllChords_head {r : Char} {t : List Char}
    (hr : isRootLetter r = true) :
    ∃ z rest, matchAllChords (r :: t) = (r :: z) :: rest := by
  obtain ⟨z, a, hg⟩ := greedyChordAt_root t hr
  refine ⟨z, matchAllChordsFuel (t.length + 1) a, ?_⟩
  show matchAllChordsFuel ((r :: t).length + 1) (r :: t) = _
  simp only [List.length_cons, matchAllChordsFuel, hg]

theorem keyPrefix_root {r : Char} (z : List Char)
    (hr : isRootLetter r = true) :
    ∃ x, keyPrefix (r :: z) = some (r :: x) := by
  simp only [keyPrefix, hr]
  exact ⟨_, rfl⟩

/-- The updated provisional key of the non-paired branches. -/
theorem ccSingle_stay (line : List Char) {dk : List Char} (h : dk ≠ []) :
    (ccSingle line dk).2 = dk := by
  have hdk : decide (dk = []) = false := by simp [h]
  simp only [ccSingle, hdk, Bool.false_and, Bool.false_eq_true, if_false]
  split
  · split <;> rfl
  · split <;> rfl

/-- The provisional key never changes once set. -/
theorem ccLoop_stay (ls : List (List Char)) {dk : List Char}
    (h : dk ≠ []) : (ccLoop ls dk).2 = dk := by
  match ls with
  | [] => rfl
  | line :: restLines =>
    have hdk : decide (dk = []) = false := by simp [h]
    simp only [ccLoop]
    split
    · simp only [hdk, Bool.and_false, Bool.false_and, Bool.false_eq_true,
        if_false]
      cases restLines with
      | nil => simp
      | cons l2 rest' =>
        simp only []
        exact ccLoop_stay rest' h
    · have hstay := ccSingle_stay line h
      cases hs : ccSingle line dk with
      | mk o dk' =>
        rw [hs] at hstay
        simp only at hstay
        subst hstay
        cases o with
        | some out =>
          simp only []
          exact ccLoop_stay restLines h
        | none =>
          simp only []
          exact ccLoop_stay restLines h
termination_by ls.length

/-- The updated provisional key of a chord-only line seen while the key
is unset. -/
theorem ccSingle_key_chord {line : List Char} {r : Char} {z : List Char}
    {mrest : List (List Char)}
    (hline : chordSeqTest (trimL (collapseWs line)) = true)
    (hm : matchAllChords (trimL (collapseWs line)) = (r :: z) :: mrest) :
    (ccSingle line []).2 = r :: z := by
  simp only [ccSingle, hline, hm, if_true]
  simp

/-- The provisional key after the loop is the first greedy chord of the
first line matching the chord-sequence pattern. -/
theorem ccLoop_key (ls : List (List Char)) :
    (ccLoop ls []).2 =
      (match ls.find? (fun l => chordSeqTest (trimL (collapseWs l))) with
       | none => []
       | some l => (matchAllChords (trimL (collapseWs l))).headD []) := by
  match ls with
  | [] => rfl
  | line :: restLines =>
    by_cases hline : chordSeqTest (trimL (collapseWs line)) = true
    · rw [List.find?_cons_of_pos _ (by simpa using hline)]
      obtain ⟨r, t, heq, hr⟩ := chordSeqTest_head_root hline
      obtain ⟨z, mrest, hm⟩ := @matchAllChords_head r t hr
      rw [← heq] at hm
      have hne : (matchAllChords (trimL (collapseWs line))).headD [] ≠ [] := by
        rw [hm]; simp
      simp only [hm, List.headD_cons]
      simp only [ccLoop]
      split
      · rw [hm]
        cases restLines with
        | nil => simp
        | cons l2 rest' =>
          simp only [List.length_cons, List.headD_cons]
          simp only [gt_iff_lt, Nat.zero_lt_succ, decide_True,
            ne_eq, List.cons_ne_nil, not_false_eq_true, Bool.and_self,
            if_true]
          exact ccLoop_stay rest' (by simp)
      · have hkey := ccSingle_key_chord hline hm
        cases hs : ccSingle line [] with
        | mk o dk' =>
          rw [hs] at hkey
          simp only at hkey
          subst hkey
          cases o with
          | some out =>
            simp only []
            exact ccLoop_stay restLines (by simp)
          | none =>
            simp only []
            exact ccLoop_stay restLines (by simp)
    · rw [List.find?_cons_of_neg _ (by simpa using hline)]
      have hfalse : chordSeqTest (trimL (collapseWs line)) = false := by
        simpa using hline
      have hsingle : ccSingle line [] =
          (if trimL line ≠ [] then (some line, ([] : List Char))
           else (some [], ([] : List Char))) := by
        simp only [ccSingle, hfalse, Bool.false_eq_true, if_false]
      simp only [ccLoop, hfalse, Bool.false_and, Bool.false_eq_true,
        if_false, hsingle]
      by_cases htr : trimL line ≠ []
      · rw [if_pos htr]
        simp only []
        exact ccLoop_key restLines
      · rw [if_neg htr]
        simp only []
        exact ccLoop_key restLines
termination_by ls.length

/-- The detected key exactly as claim C5 words it: the first chord token
encountered in the document (the first greedy chord of the first
chord-sequence line), normalized by stripping everything past
`root[accidental][minor-marker]`; `"C"` when no chord is found or the
normalized candidate is not canonical. -/
def detectedKeySpecC5 (raw : List Char) : List Char :=
  match (splitNl raw).find? (fun l => chordSeqTest (trimL (collapseWs l))) with
  | none => ("C".toList)
  | some l =>
      let candidate := (matchAllChords (trimL (collapseWs l))).headD []
      let normalized :=
        match keyPrefix candidate with
        | some p => p
        | none => candidate
      if KEYS.contains normalized then normalized else ("C".toList)

theorem finalizeDetectedKey_mem (dk : List Char) :
    finalizeDetectedKey dk ∈ KEYS := by
  unfold finalizeDetectedKey
  set dk1 := (if dk ≠ [] then
      (match keyPrefix dk with | some p => p | none => dk) else dk) with hdk1
  cases hc : (decide (dk1 = []) || ! KEYS.contains dk1) with
  | true =>
    simp only [hc]
    simp only [if_true]
    decide
  | false =>
    simp only [hc]
    simp only [Bool.false_eq_true, if_false]
    have hc2 := hc
    simp only [Bool.or_eq_false_iff, Bool.not_eq_false] at hc2
    have hc3 : KEYS.contains dk1 = true := by simpa using hc2.2
    have hc4 : List.elem dk1 KEYS = true := hc3
    exact List.mem_of_elem_eq_true hc4

/-- C5: for every raw stacked input, the detected key is the first chord
token encountered (first greedy chord match of the first line matching
the chord-sequence pattern), normalized by stripping everything past
`root[accidental][minor-marker]`; if no chord-sequence line exists or
the normalized candidate is not one of the 34 canonical key names, the
detected key defaults to `"C"`.  The result is always canonical, so the
fallback is never surfaced as a failure. -/
theorem claim_C5_theorem (raw : List Char) :
    (parseCifraclubContent raw).2 = detectedKeySpecC5 raw ∧
    (parseCifraclubContent raw).2 ∈ KEYS := by
  refine ⟨?_, finalizeDetectedKey_mem _⟩
  show finalizeDetectedKey (ccLoop (splitNl raw) []).2 = _
  rw [ccLoop_key]
  unfold detectedKeySpecC5
  cases hfind : (splitNl raw).find?
      (fun l => chordSeqTest (trimL (collapseWs l))) with
  | none => decide
  | some l =>
    have hl : chordSeqTest (trimL (collapseWs l)) = true := by
      have := List.find?_some hfind
      simpa using this
    obtain ⟨r, t, heq, hr⟩ := chordSeqTest_head_root hl
    obtain ⟨z, mrest, hm⟩ := @matchAllChords_head r t hr
    rw [← heq] at hm
    simp only [hm, List.headD_cons]
    obtain ⟨x, hk⟩ := keyPrefix_root z hr
    unfold finalizeDetectedKey
    cases hc : KEYS.contains (r :: x) with
    | true => simp [hk, hc]
    | false => simp [hk, hc]

/-! ## Claim C1: observation functions
The program decomposes a chord string by splitting at the first `/` and
matching `^([A-G])([#b]?)(.*)$` on the part before it; these functions
expose the root pitch class (as the program computes it, including the
`NOTE_MAP[root+modifier] ?? NOTE_MAP[root] ?? 0` fallback), the quality
suffix, and the bass pitch class of that decomposition. -/

def mainOf (c : List Char) : List Char :=
  match splitFirstSlash c with
  | some p => p.1
  | none => c

def bassOf (c : List Char) : Option (List Char) :=
  (splitFirstSlash c).map fun p => p.2

def rootPcOf (c : List Char) : Option Nat :=
  (chordRegexMatch (mainOf c)).map fun t => noteValueOf t.1 t.2.1

def suffixOf (c : List Char) : Option (List Char) :=
  (chordRegexMatch (mainOf c)).map fun t => t.2.2

def notePcOf (b : List Char) : Option Nat :=
  (noteRegexMatch b).map fun t => noteValueOf t.1 t.2

def bassPcOf (c : List Char) : Option Nat :=
  (bassOf c).bind notePcOf

/-! ### Character-class facts -/

theorem ws_not_root {ch : Char} (h : isJsWs ch = true) :
    isRootLetter ch = false := by
  have hm : ch ∈ JS_WS := List.mem_of_elem_eq_true h
  fin_cases hm <;> decide

theorem ws_not_sharp {ch : Char} (h : isJsWs ch = true) : ch ≠ '#' := by
  have hm : ch ∈ JS_WS := List.mem_of_elem_eq_true h
  fin_cases hm <;> decide

theorem ws_not_flatchar {ch : Char} (h : isJsWs ch = true) : ch ≠ 'b' := by
  have hm : ch ∈ JS_WS := List.mem_of_elem_eq_true h
  fin_cases hm <;> decide

theorem ws_not_slash {ch : Char} (h : isJsWs ch = true) : ch ≠ '/' := by
  have hm : ch ∈ JS_WS := List.mem_of_elem_eq_true h
  fin_cases hm <;> decide

theorem root_ne_slash {r : Char} (h : isRootLetter r = true) : r ≠ '/' := by
  intro hh
  subst hh
  exact absurd h (by decide)

theorem root_ne_sharp {r : Char} (h : isRootLetter r = true) : r ≠ '#' := by
  intro hh
  subst hh
  exact absurd h (by decide)

theorem root_ne_flatchar {r : Char} (h : isRootLetter r = true) :
    r ≠ 'b' := by
  intro hh
  subst hh
  exact absurd h (by decide)

/-! ### Decomposition facts -/

theorem splitFirstSlash_shape {c main bass : List Char}
    (h : splitFirstSlash c = some (main, bass)) :
    c = main ++ '/' :: bass ∧ '/' ∉ main := by
  induction c generalizing main with
  | nil => simp [splitFirstSlash] at h
  | cons x cs ih =>
    simp only [splitFirstSlash] at h
    split at h
    · rename_i hx
      obtain ⟨rfl, rfl⟩ : ([] : List Char) = main ∧ cs = bass := by
        simpa using h
      subst hx
      simp
    · rename_i hx
      cases hs : splitFirstSlash cs with
      | none => rw [hs] at h; simp at h
      | some p =>
        obtain ⟨m', b'⟩ := p
        rw [hs] at h
        simp only [Option.map_some'] at h
        obtain ⟨rfl, rfl⟩ : x :: m' = main ∧ b' = bass := by simpa using h
        obtain ⟨hshape, hmem⟩ := ih hs
        constructor
        · rw [List.cons_append, ← hshape]
        · simp only [List.mem_cons, not_or]
          exact ⟨fun hh => hx hh.symm, hmem⟩

theorem splitFirstSlash_none_not_mem {c : List Char}
    (h : splitFirstSlash c = none) : '/' ∉ c := by
  induction c with
  | nil => simp
  | cons x cs ih =>
    simp only [splitFirstSlash] at h
    split at h
    · simp at h
    · rename_i hx
      cases hs : splitFirstSlash cs with
      | none =>
        simp only [List.mem_cons, not_or]
        exact ⟨fun hh => hx hh.symm, ih hs⟩
      | some p => rw [hs] at h; simp at h

theorem splitFirstSlash_append {u v : List Char} (hu : '/' ∉ u) :
    splitFirstSlash (u ++ '/' :: v) = some (u, v) := by
  induction u with
  | nil => simp [splitFirstSlash]
  | cons x u' ih =>
    simp only [List.mem_cons, not_or] at hu
    have hx : ¬ x = '/' := fun hh => hu.1 hh.symm
    simp only [List.cons_append, List.append_eq, splitFirstSlash, if_neg hx,
      ih hu.2, Option.map_some']

theorem mainOf_eq_takeWhile (c : List Char) :
    mainOf c = c.takeWhile (fun x => x != '/') := by
  induction c with
  | nil => rfl
  | cons x cs ih =>
    by_cases hx : x = '/'
    · subst hx
      simp [mainOf, splitFirstSlash, List.takeWhile_cons]
    · simp only [mainOf, splitFirstSlash, if_neg (Ne.symm (Ne.symm hx))]
      rw [List.takeWhile_cons]
      simp only [bne_iff_ne, ne_eq, hx, not_false_eq_true, if_pos]
      cases hs : splitFirstSlash cs with
      | none =>
        simp only [Option.map_none']
        have : mainOf cs = cs := by simp [mainOf, hs]
        rw [this] at ih
        rw [← ih]
      | some p =>
        simp only [Option.map_some']
        have : mainOf cs = p.1 := by simp [mainOf, hs]
        rw [this] at ih
        rw [← ih]

theorem chordRegexMatch_shape {c : List Char} {r : Char}
    {mod suf : List Char} (h : chordRegexMatch c = some (r, mod, suf)) :
    c = r :: (mod ++ suf) ∧ isRootLetter r = true ∧
      (mod = [] ∨ mod = ['#'] ∨ mod = ['b']) := by
  cases c with
  | nil => simp [chordRegexMatch] at h
  | cons r0 rest =>
    simp only [chordRegexMatch] at h
    split at h
    · rename_i hroot
      cases rest with
      | nil =>
        obtain ⟨rfl, rfl, rfl⟩ : r0 = r ∧ [] = mod ∧ ([] : List Char) = suf := by
          simpa using h
        exact ⟨rfl, hroot, Or.inl rfl⟩
      | cons c2 rest2 =>
        have h' : (if (decide (c2 = '#') || decide (c2 = 'b')) = true
            then some (r0, [c2], rest2)
            else some (r0, ([] : List Char), c2 :: rest2)) =
            some (r, mod, suf) := h
        by_cases hc2 : c2 = '#' ∨ c2 = 'b'
        · rw [if_pos (by simpa using hc2)] at h'
          obtain ⟨rfl, rfl, rfl⟩ : r0 = r ∧ [c2] = mod ∧ rest2 = suf := by
            simpa using h'
          refine ⟨by simp, hroot, ?_⟩
          rcases hc2 with rfl | rfl
          · exact Or.inr (Or.inl rfl)
          · exact Or.inr (Or.inr rfl)
        · rw [if_neg (by simpa using hc2)] at h'
          obtain ⟨rfl, rfl, rfl⟩ : r0 = r ∧ [] = mod ∧ c2 :: rest2 = suf := by
            simpa using h'
          exact ⟨rfl, hroot, Or.inl rfl⟩
    · simp at h

/-! ### Pitch-class bounds and the note-name table -/

theorem mapLookup_bound {l : List (List Char × Nat)} {k : List Char}
    {v : Nat} (h : mapLookup l k = some v) (hall : ∀ p ∈ l, p.2 < 12) :
    v < 12 := by
  induction l with
  | nil => simp [mapLookup] at h
  | cons p rest ih =>
    obtain ⟨k', v'⟩ := p
    simp only [mapLookup] at h
    split at h
    · obtain rfl : v' = v := by simpa using h
      exact hall _ (List.mem_cons_self _ _)
    · exact ih h fun q hq => hall q (List.mem_cons_of_mem _ hq)

theorem noteValueOf_lt (r : Char) (m : List Char) : noteValueOf r m < 12 := by
  unfold noteValueOf
  have hall : ∀ p ∈ NOTE_MAP, p.2 < 12 := by decide
  cases h1 : mapLookup NOTE_MAP (r :: m) with
  | some v =>
    exact mapLookup_bound h1 hall
  | none =>
    cases h2 : mapLookup NOTE_MAP [r] with
    | some v =>
      exact mapLookup_bound h2 hall
    | none =>
      decide

theorem noteNameAt_shape : ∀ k, k < 12 → ∀ f : Bool,
    noteNameAt f k ≠ [] ∧
    isRootLetter ((noteNameAt f k).headD 'C') = true ∧
    ((noteNameAt f k).tail = [] ∨ (noteNameAt f k).tail = ['#'] ∨
      (noteNameAt f k).tail = ['b']) ∧
    noteValueOf ((noteNameAt f k).headD 'C') ((noteNameAt f k).tail) = k ∧
    ('/' ∉ noteNameAt f k) := by decide

theorem noteRegexMatch_noteName : ∀ k, k < 12 → ∀ f : Bool,
    noteRegexMatch (noteNameAt f k) =
      some ((noteNameAt f k).headD 'C', (noteNameAt f k).tail) := by decide

theorem chordRegexMatch_noteName (k : Nat) (hk : k < 12) (f : Bool)
    {s : List Char} (h1 : s.head? ≠ some '#') (h2 : s.head? ≠ some 'b') :
    chordRegexMatch (noteNameAt f k ++ s) =
      some ((noteNameAt f k).headD 'C', (noteNameAt f k).tail, s) := by
  obtain ⟨hne, hroot, htail, hval, hslash⟩ := noteNameAt_shape k hk f
  obtain ⟨r0, rest0, hn⟩ : ∃ r0 rest0, noteNameAt f k = r0 :: rest0 := by
    cases hcase : noteNameAt f k with
    | nil => exact absurd hcase hne
    | cons a b => exact ⟨a, b, rfl⟩
  rw [hn] at hroot htail ⊢
  simp only [List.headD_cons, List.tail_cons] at hroot htail ⊢
  rcases htail with h | h | h
  · subst h
    cases s with
    | nil => simp [chordRegexMatch, hroot]
    | cons c t =>
      have hc1 : ¬ (c = '#') := by
        intro hh
        exact h1 (by rw [hh]; rfl)
      have hc2 : ¬ (c = 'b') := by
        intro hh
        exact h2 (by rw [hh]; rfl)
      simp [chordRegexMatch, hroot, hc1, hc2]
  · subst h
    simp [chordRegexMatch, hroot]
  · subst h
    simp [chordRegexMatch, hroot]

/-! ### Pitch-class arithmetic for the round trip -/

theorem pcShift_lt (v : Nat) (d : Int) :
    ((((v : Int) + d).tmod 12 + 12).tmod 12).toNat < 12 := by
  rw [tmod_plus12_tmod]
  have h1 : 0 ≤ ((v : Int) + d) % 12 := Int.emod_nonneg _ (by omega)
  have h2 : ((v : Int) + d) % 12 < 12 := Int.emod_lt_of_pos _ (by omega)
  omega

theorem pcShift_roundtrip (v : Nat) (hv : v < 12) (d : Int) :
    (((((((v : Int) + d).tmod 12 + 12).tmod 12).toNat : Int) + (-d)).tmod
        12 + 12).tmod 12 = (v : Int) := by
  rw [tmod_plus12_tmod]
  have h1 : 0 ≤ ((v : Int) + d) % 12 := Int.emod_nonneg _ (by omega)
  have h2 : ((v : Int) + d) % 12 < 12 := Int.emod_lt_of_pos _ (by omega)
  rw [Int.toNat_of_nonneg (by rw [tmod_plus12_tmod]; exact h1)]
  rw [tmod_plus12_tmod]
  omega

theorem transposeNote_none {b : List Char} (h : noteRegexMatch b = none)
    (d : Int) (f : Bool) : transposeNote b d f = b := by
  simp [transposeNote, h]

theorem transposeNote_some {b : List Char} {r : Char} {m : List Char}
    (h : noteRegexMatch b = some (r, m)) (d : Int) (f : Bool) :
    transposeNote b d f =
      noteNameAt f
        ((((noteValueOf r m : Int) + d).tmod 12 + 12).tmod 12).toNat := by
  simp [transposeNote, h]

/-- Double transposition of a slash bass preserves its pitch class (and
leaves non-note text untouched). -/
theorem tn_double (b : List Char) (d : Int) (f1 f2 : Bool) :
    notePcOf (transposeNote (transposeNote b d f1) (-d) f2) = notePcOf b := by
  cases hb : noteRegexMatch b with
  | none => rw [transposeNote_none hb, transposeNote_none hb]
  | some t =>
    obtain ⟨r, m⟩ := t
    rw [transposeNote_some hb]
    have hv := noteValueOf_lt r m
    have hk1 := pcShift_lt (noteValueOf r m) d
    have hn1 := noteRegexMatch_noteName _ hk1 f1
    obtain ⟨-, -, -, hval1, -⟩ := noteNameAt_shape _ hk1 f1
    rw [transposeNote_some hn1, hval1]
    have hk2 := pcShift_lt ((((noteValueOf r m : Int) + d).tmod 12 +
      12).tmod 12).toNat (-d)
    have hn2 := noteRegexMatch_noteName _ hk2 f2
    obtain ⟨-, -, -, hval2, -⟩ := noteNameAt_shape _ hk2 f2
    unfold notePcOf
    rw [hn2, hb]
    simp only [Option.map_some']
    rw [hval2]
    have := pcShift_roundtrip (noteValueOf r m) hv d
    have htn : ((((((((noteValueOf r m : Int) + d).tmod 12 + 12).tmod
        12).toNat : Int) + (-d)).tmod 12 + 12).tmod 12).toNat =
        noteValueOf r m := by
      rw [this]
      simp
    rw [htn]

/-! ### Computation lemmas for `chordRegexMatch` on explicit streams -/

theorem chordRegexMatch_cons_acc {r0 a : Char} {rest : List Char}
    (hroot : isRootLetter r0 = true) (ha : a = '#' ∨ a = 'b') :
    chordRegexMatch (r0 :: a :: rest) = some (r0, [a], rest) := by
  rcases ha with rfl | rfl <;> simp [chordRegexMatch, hroot]

theorem chordRegexMatch_cons_noacc {r0 a : Char} {rest : List Char}
    (hroot : isRootLetter r0 = true) (h1 : a ≠ '#') (h2 : a ≠ 'b') :
    chordRegexMatch (r0 :: a :: rest) = some (r0, [], a :: rest) := by
  simp [chordRegexMatch, hroot, h1, h2]

theorem chordRegexMatch_single {r0 : Char} (hroot : isRootLetter r0 = true) :
    chordRegexMatch [r0] = some (r0, [], []) := by
  simp [chordRegexMatch, hroot]

/-! ### Decomposition of a token around its `trim` -/

theorem trimL_decomp (c : List Char) :
    ∃ lead tail, c = lead ++ trimL c ++ tail ∧
      (∀ x ∈ lead, isJsWs x = true) ∧ (∀ x ∈ tail, isJsWs x = true) := by
  refine ⟨c.takeWhile isJsWs,
    ((c.dropWhile isJsWs).reverse.takeWhile isJsWs).reverse, ?_, ?_, ?_⟩
  · have h1 : c.takeWhile isJsWs ++ c.dropWhile isJsWs = c :=
      List.takeWhile_append_dropWhile isJsWs c
    have h2 : (c.dropWhile isJsWs).reverse.takeWhile isJsWs ++
        (c.dropWhile isJsWs).reverse.dropWhile isJsWs =
        (c.dropWhile isJsWs).reverse :=
      List.takeWhile_append_dropWhile isJsWs (c.dropWhile isJsWs).reverse
    have h3 : c.dropWhile isJsWs =
        trimL c ++ ((c.dropWhile isJsWs).reverse.takeWhile isJsWs).reverse := by
      unfold trimL
      rw [← List.reverse_append, h2, List.reverse_reverse]
    rw [List.append_assoc, ← h3]
    exact h1.symm
  · intro x hx
    exact List.mem_takeWhile_imp hx
  · intro x hx
    rw [List.mem_reverse] at hx
    exact List.mem_takeWhile_imp hx

/-! ### Suffix-head facts derived from the grammar -/

/-- If the grammar accepts `a :: rest2` after the root and `a` is an
accidental, the accepting decomposition must have consumed `a` as the
`[#b]?` group, so the suffix alternation run starts at `rest2`. -/
theorem afterRoot_accidental {a : Char} {rest2 : List Char}
    (h : chordAfterRoot (a :: rest2) = true) (ha : a = '#' ∨ a = 'b') :
    SuffixRun rest2 := by
  have h' : (((decide (a = '#') || decide (a = 'b')) && suffixRun rest2) ||
      suffixRun (a :: rest2)) = true := h
  simp only [Bool.or_eq_true, Bool.and_eq_true] at h'
  rcases h' with ⟨-, hrun⟩ | hrun
  · exact suffixRunFuel_complete
      (show suffixRunFuel (rest2.length + 1) rest2 = true from hrun)
  · exfalso
    obtain ⟨h1, h2⟩ := suffixRun_headOk (suffixRunFuel_complete
      (show suffixRunFuel ((a :: rest2).length + 1) (a :: rest2) = true
        from hrun))
    rcases ha with rfl | rfl
    · exact h1 rfl
    · exact h2 rfl

theorem run_append_ws_headOk {rest2 tail : List Char} (h : SuffixRun rest2)
    (htail : ∀ x ∈ tail, isJsWs x = true) :
    (rest2 ++ tail).head? ≠ some '#' ∧ (rest2 ++ tail).head? ≠ some 'b' := by
  cases rest2 with
  | nil =>
    cases tail with
    | nil => simp
    | cons w tw =>
      have hw := htail w (by simp)
      constructor
      · simpa using ws_not_sharp hw
      · simpa using ws_not_flatchar hw
  | cons b2 r2 =>
    obtain ⟨h1, h2⟩ := suffixRun_headOk h
    constructor
    · simpa using h1
    · simpa using h2

/-- Locating the first slash of `rest0 ++ tail` inside `rest0` when the
tail is slash-free. -/
theorem append_slash_split {u b' : List Char} : ∀ {rest0 tail : List Char},
    rest0 ++ tail = u ++ '/' :: b' → '/' ∉ u → '/' ∉ tail →
    ∃ v, rest0 = u ++ '/' :: v ∧ b' = v ++ tail := by
  induction u with
  | nil =>
    intro rest0 tail heq hu htail
    cases rest0 with
    | nil =>
      simp only [List.nil_append] at heq
      subst heq
      exact absurd (List.mem_cons_self _ _) htail
    | cons x rs =>
      simp only [List.cons_append, List.nil_append, List.cons.injEq] at heq
      obtain ⟨rfl, heq2⟩ := heq
      exact ⟨rs, by simp, heq2.symm⟩
  | cons a u2 ih =>
    intro rest0 tail heq hu htail
    simp only [List.mem_cons, not_or] at hu
    cases rest0 with
    | nil =>
      simp only [List.nil_append, List.cons_append] at heq
      subst heq
      exact absurd (by simp) htail
    | cons x rs =>
      simp only [List.cons_append, List.cons.injEq] at heq
      obtain ⟨rfl, heq2⟩ := heq
      obtain ⟨v, hv1, hv2⟩ := ih heq2 hu.2 htail
      exact ⟨v, by rw [List.cons_append, hv1], hv2⟩

/-- For a token accepted by `isChordToken`, the suffix captured by
`transposeChord`'s regex on the token's main part never begins with an
accidental: the grammar forces either a non-accidental alternative head
or trailing whitespace there. -/
theorem good_of_isChordToken {c : List Char} (h : isChordToken c = true)
    {r : Char} {mod suf : List Char}
    (hm : chordRegexMatch (mainOf c) = some (r, mod, suf)) :
    suf.head? ≠ some '#' ∧ suf.head? ≠ some 'b' := by
  obtain ⟨lead, tail, hdecomp, hlead, htail⟩ := trimL_decomp c
  unfold isChordToken at h
  obtain ⟨r0, rest0, ht⟩ : ∃ r0 rest0, trimL c = r0 :: rest0 := by
    cases hcase : trimL c with
    | nil => rw [hcase] at h; exact absurd h (by decide)
    | cons a b => exact ⟨a, b, rfl⟩
  rw [ht] at h hdecomp
  have h' : (isRootLetter r0 && chordAfterRoot rest0) = true := h
  simp only [Bool.and_eq_true] at h'
  obtain ⟨hroot0, hAfter⟩ := h'
  cases lead with
  | cons w lw =>
    exfalso
    have hw : isJsWs w = true := hlead w (by simp)
    simp only [List.cons_append] at hdecomp
    have hwroot : isRootLetter w = false := ws_not_root hw
    cases hsp : splitFirstSlash c with
    | none =>
      have hmc : mainOf c = c := by simp [mainOf, hsp]
      rw [hmc, hdecomp] at hm
      simp [chordRegexMatch, hwroot] at hm
    | some p =>
      obtain ⟨m', b'⟩ := p
      have hmc : mainOf c = m' := by simp [mainOf, hsp]
      obtain ⟨hcshape, hm'slash⟩ := splitFirstSlash_shape hsp
      have heq := hdecomp.symm.trans hcshape
      cases m' with
      | nil =>
        simp only [List.nil_append, List.cons.injEq] at heq
        exact ws_not_slash hw heq.1
      | cons x m2 =>
        simp only [List.cons_append, List.cons.injEq] at heq
        rw [hmc, ← heq.1] at hm
        simp [chordRegexMatch, hwroot] at hm
  | nil =>
    simp only [List.nil_append, List.cons_append] at hdecomp
    cases hsp : splitFirstSlash c with
    | none =>
      have hmc : mainOf c = c := by simp [mainOf, hsp]
      rw [hmc, hdecomp] at hm
      cases rest0 with
      | nil =>
        simp only [List.nil_append] at hm
        cases htl : tail with
        | nil =>
          rw [htl] at hm
          rw [chordRegexMatch_single hroot0] at hm
          obtain ⟨-, -, rfl⟩ : r0 = r ∧ ([] : List Char) = mod ∧
              ([] : List Char) = suf := by simpa using hm
          simp
        | cons w tw =>
          rw [htl] at hm
          have hw : isJsWs w = true := htail w (by rw [htl]; simp)
          rw [chordRegexMatch_cons_noacc hroot0 (ws_not_sharp hw)
            (ws_not_flatchar hw)] at hm
          obtain ⟨-, -, rfl⟩ : r0 = r ∧ ([] : List Char) = mod ∧
              w :: tw = suf := by simpa using hm
          constructor
          · simpa using ws_not_sharp hw
          · simpa using ws_not_flatchar hw
      | cons a rest2 =>
        simp only [List.cons_append] at hm
        by_cases ha : a = '#' ∨ a = 'b'
        · rw [chordRegexMatch_cons_acc hroot0 ha] at hm
          obtain ⟨-, -, rfl⟩ : r0 = r ∧ [a] = mod ∧
              rest2 ++ tail = suf := by simpa using hm
          exact run_append_ws_headOk (afterRoot_accidental hAfter ha) htail
        · obtain ⟨ha1, ha2⟩ := not_or.mp ha
          rw [chordRegexMatch_cons_noacc hroot0 ha1 ha2] at hm
          obtain ⟨-, -, rfl⟩ : r0 = r ∧ ([] : List Char) = mod ∧
              a :: (rest2 ++ tail) = suf := by simpa using hm
          constructor
          · simpa using ha1
          · simpa using ha2
    | some p =>
      obtain ⟨m', b'⟩ := p
      have hmc : mainOf c = m' := by simp [mainOf, hsp]
      obtain ⟨hcshape, hm'slash⟩ := splitFirstSlash_shape hsp
      rw [hmc] at hm
      rw [hdecomp] at hcshape
      have htslash : '/' ∉ tail := fun hmem => ws_not_slash (htail _ hmem) rfl
      cases m' with
      | nil =>
        simp only [List.nil_append, List.cons.injEq] at hcshape
        exact absurd hcshape.1 (root_ne_slash hroot0)
      | cons x u =>
        simp only [List.cons_append, List.cons.injEq] at hcshape
        obtain ⟨hx, hstream⟩ := hcshape
        subst hx
        have huslash : '/' ∉ u := by
          intro hmem
          exact hm'slash (by simp [hmem])
        obtain ⟨v, hrest0, -⟩ := append_slash_split hstream huslash htslash
        cases u with
        | nil =>
          rw [chordRegexMatch_single hroot0] at hm
          obtain ⟨-, -, rfl⟩ : r0 = r ∧ ([] : List Char) = mod ∧
              ([] : List Char) = suf := by simpa using hm
          simp
        | cons a u2 =>
          by_cases ha : a = '#' ∨ a = 'b'
          · rw [chordRegexMatch_cons_acc hroot0 ha] at hm
            obtain ⟨-, -, rfl⟩ : r0 = r ∧ [a] = mod ∧ u2 = suf := by
              simpa using hm
            rw [hrest0] at hAfter
            simp only [List.cons_append] at hAfter
            have hrun : SuffixRun (u2 ++ '/' :: v) :=
              afterRoot_accidental hAfter ha
            cases u2 with
            | nil => simp
            | cons b2 u3 =>
              obtain ⟨h1, h2⟩ := suffixRun_headOk hrun
              constructor
              · intro hh
                apply h1
                simp only [List.cons_append, List.head?_cons]
                simpa using hh
              · intro hh
                apply h2
                simp only [List.cons_append, List.head?_cons]
                simpa using hh
          · obtain ⟨ha1, ha2⟩ := not_or.mp ha
            rw [chordRegexMatch_cons_noacc hroot0 ha1 ha2] at hm
            obtain ⟨-, -, rfl⟩ : r0 = r ∧ ([] : List Char) = mod ∧
                a :: u2 = suf := by simpa using hm
            constructor
            · simpa using ha1
            · simpa using ha2

/-! ### The slash-free double transposition -/

theorem transposeChord_slashfree {u : List Char} (hu : '/' ∉ u) (d : Int)
    (f : Bool) : '/' ∉ transposeChord u d f := by
  cases hcr : chordRegexMatch u with
  | none =>
    have h1 : transposeChord u d f = u := by
      rw [transposeChord_eq_none (splitFirstSlash_eq_none hu), hcr]
    rw [h1]
    exact hu
  | some t =>
    obtain ⟨r, mod, suf⟩ := t
    have h1 : transposeChord u d f =
        noteNameAt f ((((noteValueOf r mod : Int) +
          ((d.tmod 12 + 12).tmod 12)).tmod 12 + 12).tmod 12).toNat ++ suf := by
      rw [transposeChord_eq_none (splitFirstSlash_eq_none hu), hcr]
    rw [h1]
    obtain ⟨hshape, -, -⟩ := chordRegexMatch_shape hcr
    have hsuf : '/' ∉ suf := by
      intro hmem
      apply hu
      rw [hshape]
      simp [hmem]
    obtain ⟨-, -, -, -, hslash⟩ := noteNameAt_shape _
      (pcShift_lt (noteValueOf r mod) ((d.tmod 12 + 12).tmod 12)) f
    simp only [List.mem_append, not_or]
    exact ⟨hslash, hsuf⟩

/-- Core of claim C1 on a slash-free chord string: transposing by `d` and
back by `-d` (with arbitrary spelling flags) keeps the string slash-free
and preserves the root pitch class and the captured suffix, provided the
captured suffix does not begin with an accidental. -/
theorem tc_main_double {u : List Char} (hu : '/' ∉ u)
    (hsuf : ∀ r mod suf, chordRegexMatch u = some (r, mod, suf) →
      suf.head? ≠ some '#' ∧ suf.head? ≠ some 'b')
    (d : Int) (f1 f2 : Bool) :
    '/' ∉ transposeChord (transposeChord u d f1) (-d) f2 ∧
    (chordRegexMatch (transposeChord (transposeChord u d f1) (-d) f2)).map
        (fun t => noteValueOf t.1 t.2.1) =
      (chordRegexMatch u).map (fun t => noteValueOf t.1 t.2.1) ∧
    (chordRegexMatch (transposeChord (transposeChord u d f1) (-d) f2)).map
        (fun t => t.2.2) =
      (chordRegexMatch u).map (fun t => t.2.2) := by
  have hsn : splitFirstSlash u = none := splitFirstSlash_eq_none hu
  cases hcr : chordRegexMatch u with
  | none =>
    have h1 : transposeChord u d f1 = u := by
      rw [transposeChord_eq_none hsn, hcr]
    rw [h1]
    have h2 : transposeChord u (-d) f2 = u := by
      rw [transposeChord_eq_none hsn, hcr]
    rw [h2]
    exact ⟨hu, by rw [hcr], by rw [hcr]⟩
  | some t =>
    obtain ⟨r, mod, suf⟩ := t
    obtain ⟨hs1, hs2⟩ := hsuf r mod suf hcr
    obtain ⟨hshape, -, -⟩ := chordRegexMatch_shape hcr
    have hsufslash : '/' ∉ suf := by
      intro hmem
      apply hu
      rw [hshape]
      simp [hmem]
    have hv : noteValueOf r mod < 12 := noteValueOf_lt r mod
    have h1 : transposeChord u d f1 =
        noteNameAt f1 ((((noteValueOf r mod : Int) + d).tmod 12 +
          12).tmod 12).toNat ++ suf := by
      rw [transposeChord_eq_none hsn, hcr]
      dsimp only
      rw [double_norm_eq]
    have hk1 := pcShift_lt (noteValueOf r mod) d
    obtain ⟨hne1, hroot1, htail1, hval1, hslash1⟩ := noteNameAt_shape
      ((((noteValueOf r mod : Int) + d).tmod 12 + 12).tmod 12).toNat hk1 f1
    have hcr1 := chordRegexMatch_noteName
      ((((noteValueOf r mod : Int) + d).tmod 12 + 12).tmod 12).toNat
      hk1 f1 hs1 hs2
    have hT1slash : '/' ∉ noteNameAt f1
        ((((noteValueOf r mod : Int) + d).tmod 12 + 12).tmod 12).toNat ++
        suf := by
      simp only [List.mem_append, not_or]
      exact ⟨hslash1, hsufslash⟩
    have h2 : transposeChord (noteNameAt f1
        ((((noteValueOf r mod : Int) + d).tmod 12 + 12).tmod 12).toNat ++
          suf) (-d) f2 =
        noteNameAt f2 ((((((((noteValueOf r mod : Int) + d).tmod 12 +
          12).tmod 12).toNat : Int) + (-d)).tmod 12 + 12).tmod
          12).toNat ++ suf := by
      rw [transposeChord_eq_none (splitFirstSlash_eq_none hT1slash), hcr1]
      dsimp only
      rw [double_norm_eq, hval1]
    have hK2n : ((((((((noteValueOf r mod : Int) + d).tmod 12 +
        12).tmod 12).toNat : Int) + (-d)).tmod 12 + 12).tmod 12).toNat =
        noteValueOf r mod := by
      rw [pcShift_roundtrip (noteValueOf r mod) hv d]
      simp
    rw [h1, h2, hK2n]
    obtain ⟨hne2, hroot2, htail2, hval2, hslash2⟩ :=
      noteNameAt_shape (noteValueOf r mod) hv f2
    have hcr2 := chordRegexMatch_noteName (noteValueOf r mod) hv f2 hs1 hs2
    refine ⟨?_, ?_, ?_⟩
    · simp only [List.mem_append, not_or]
      exact ⟨hslash2, hsufslash⟩
    · rw [hcr2]
      simp only [Option.map_some']
      rw [hval2]
    · rw [hcr2]
      rfl

/-- C1 (amended): for every token `c` accepted by the §4.1 chord grammar
(`isChordToken`), every integer `d` and spelling flags `f1`, `f2`,
`transposeChord (transposeChord c d f1) (-d) f2` has the same root pitch
class, the same quality suffix and the same bass pitch class as `c`; the
flags never affect the pitch classes.  The original claim's weaker
hypothesis — only the root (and bass) need parse — is refuted by
`claim_C1_counterexample`. -/
theorem claim_C1_theorem (c : List Char) (d : Int) (f1 f2 : Bool)
    (h : isChordToken c = true) :
    rootPcOf (transposeChord (transposeChord c d f1) (-d) f2) = rootPcOf c ∧
    suffixOf (transposeChord (transposeChord c d f1) (-d) f2) = suffixOf c ∧
    bassPcOf (transposeChord (transposeChord c d f1) (-d) f2) =
      bassPcOf c := by
  cases hsp : splitFirstSlash c with
  | none =>
    have hmc : mainOf c = c := by simp [mainOf, hsp]
    have hu : '/' ∉ c := splitFirstSlash_none_not_mem hsp
    have hsuf : ∀ r mod suf, chordRegexMatch c = some (r, mod, suf) →
        suf.head? ≠ some '#' ∧ suf.head? ≠ some 'b' := by
      intro r mod suf hmm
      exact good_of_isChordToken h (by rw [hmc]; exact hmm)
    obtain ⟨hT2, hpc, hsx⟩ := tc_main_double hu hsuf d f1 f2
    have hspT2 : splitFirstSlash
        (transposeChord (transposeChord c d f1) (-d) f2) = none :=
      splitFirstSlash_eq_none hT2
    have hmT2 : mainOf (transposeChord (transposeChord c d f1) (-d) f2) =
        transposeChord (transposeChord c d f1) (-d) f2 := by
      simp [mainOf, hspT2]
    have hbT2 : bassOf (transposeChord (transposeChord c d f1) (-d) f2) =
        none := by
      simp [bassOf, hspT2]
    have hbc : bassOf c = none := by simp [bassOf, hsp]
    refine ⟨?_, ?_, ?_⟩
    · simp only [rootPcOf, hmT2, hmc]
      exact hpc
    · simp only [suffixOf, hmT2, hmc]
      exact hsx
    · simp [bassPcOf, hbT2, hbc]
  | some p =>
    obtain ⟨mainP, bassP⟩ := p
    have hmc : mainOf c = mainP := by simp [mainOf, hsp]
    obtain ⟨hcshape, humain⟩ := splitFirstSlash_shape hsp
    have hsuf : ∀ r mod suf, chordRegexMatch mainP = some (r, mod, suf) →
        suf.head? ≠ some '#' ∧ suf.head? ≠ some 'b' := by
      intro r mod suf hmm
      exact good_of_isChordToken h (by rw [hmc]; exact hmm)
    obtain ⟨hM2, hpc, hsx⟩ := tc_main_double humain hsuf d f1 f2
    have hM1 : '/' ∉ transposeChord mainP d f1 :=
      transposeChord_slashfree humain d f1
    have hspT1 : splitFirstSlash (transposeChord c d f1) =
        some (transposeChord mainP d f1, transposeNote bassP d f1) := by
      rw [transposeChord_eq_some hsp d f1]
      exact splitFirstSlash_append hM1
    have hspT2 : splitFirstSlash
        (transposeChord (transposeChord c d f1) (-d) f2) =
        some (transposeChord (transposeChord mainP d f1) (-d) f2,
          transposeNote (transposeNote bassP d f1) (-d) f2) := by
      rw [transposeChord_eq_some hspT1 (-d) f2]
      exact splitFirstSlash_append hM2
    have hmT2 : mainOf (transposeChord (transposeChord c d f1) (-d) f2) =
        transposeChord (transposeChord mainP d f1) (-d) f2 := by
      simp [mainOf, hspT2]
    have hbT2 : bassOf (transposeChord (transposeChord c d f1) (-d) f2) =
        some (transposeNote (transposeNote bassP d f1) (-d) f2) := by
      simp [bassOf, hspT2]
    have hbc : bassOf c = some bassP := by simp [bassOf, hsp]
    refine ⟨?_, ?_, ?_⟩
    · simp only [rootPcOf, hmT2, hmc]
      exact hpc
    · simp only [suffixOf, hmT2, hmc]
      exact hsx
    · simp only [bassPcOf, hbT2, hbc]
      exact tn_double bassP d f1 f2

/-- C1 counterexample to the claim as stated: `"C#b"` is a token whose
root parses under the grammar regex `^([A-G])([#b]?)(.*)$` (root `C#`,
pitch class 1, suffix `"b"`, no bass), yet transposing up one semitone
and back down gives `"C"`: the root pitch class drops to 0 and the
suffix `"b"` is lost, because the intermediate string `"Db"` re-parses
its suffix character as a flat accidental. -/
theorem claim_C1_counterexample :
    (rootPcOf ("C#b".toList)).isSome = true ∧
    bassOf ("C#b".toList) = none ∧
    transposeChord (transposeChord ("C#b".toList) 1 false) (-1) false =
      "C".toList ∧
    rootPcOf (transposeChord (transposeChord ("C#b".toList) 1 false)
      (-1) false) ≠ rootPcOf ("C#b".toList) ∧
    suffixOf (transposeChord (transposeChord ("C#b".toList) 1 false)
      (-1) false) ≠ suffixOf ("C#b".toList) := by
  have h1 : transposeChord ("C#b".toList) 1 false = "Db".toList := by
    rw [transposeChord_eq_none (by decide)]
    decide
  have h2 : transposeChord ("Db".toList) (-1) false = "C".toList := by
    rw [transposeChord_eq_none (by decide)]
    decide
  rw [h1, h2]
  decide

/-- C1 witness: the grammar-valid chord `C#m7/Eb` transposed up 5 and
back down 5 (with different spelling flags) keeps root pitch class,
suffix and bass pitch class. -/
theorem claim_C1_witness :
    isChordToken ("C#m7/Eb".toList) = true ∧
    (rootPcOf (transposeChord (transposeChord ("C#m7/Eb".toList) 5 false)
        (-5) true) = rootPcOf ("C#m7/Eb".toList) ∧
     suffixOf (transposeChord (transposeChord ("C#m7/Eb".toList) 5 false)
        (-5) true) = suffixOf ("C#m7/Eb".toList) ∧
     bassPcOf (transposeChord (transposeChord ("C#m7/Eb".toList) 5 false)
        (-5) true) = bassPcOf ("C#m7/Eb".toList)) :=
  ⟨by decide, claim_C1_theorem ("C#m7/Eb".toList) 5 false true (by decide)⟩

end AppLouvor
